import Mathlib

/-!
# Open-file table of `file.c`

A shallow embedding of `filealloc`, `filedup`, `fileclose`, `fileread`,
`filewrite` and `cs_printinfo` from `src/file.c`, with the properties claimed
for them.

Conventions of the embedding:

* `ftable.file[NFILE]` is a `List File`; its length is `NFILE` (a constant of
  `param.h`). A `struct file *` into the table is the index of the slot, and
  the null pointer returned by `filealloc` is `none`.
* Calls into the collaborators (spinlock, log, inode layer, pipes, console)
  are recorded, in program order, in a trace of `Event`s. The values the
  collaborators return come from an `Env`, which may look at the whole trace
  so far; this covers every deterministic, stateful collaborator.
* `int` values are `Int`. The only `int` arithmetic of these functions that
  can leave the 32-bit range is `f->ref++`, whose overflow is undefined in C:
  it is the outcome `Outcome.undef`. `uint` arithmetic (`f->off += r`) wraps
  modulo `2 ^ 32`.
* `panic` does not return: it is the outcome `Outcome.panic`.
-/

namespace FileC

/-! ## Data model -/

/-- Modelled from the spec: the tag of `struct file` is declared in `file.h`,
which is not among the sources. `file.c` names `FD_NONE`, `FD_PIPE` and
`FD_INODE`; the spec lists the kinds None, Pipe, Inode and Device, and says
that a zeroed slot has kind None. -/
inductive FdType where
  | FD_NONE
  | FD_PIPE
  | FD_INODE
  | FD_DEVICE
  deriving DecidableEq, Repr

open FdType

/-- Modelled from the spec: `struct file` is declared in `file.h`, which is not
among the sources. These are the fields `file.c` reads and writes, which are
those of the spec's OpenFile. Pointers are addresses (`Nat`), `ref` is an
`int`, `readable` and `writable` are `char`s, `off` is a `uint`. -/
structure File where
  type : FdType
  ref : Int
  readable : Int
  writable : Int
  pipe : Nat
  ip : Nat
  off : Nat
  deriving DecidableEq, Repr

/-- A call into a collaborator, with its arguments and, where the caller uses
it, the value returned. `acquire` and `release` are on `ftable.lock`. -/
inductive Event where
  | acquire
  | release
  | begin_op
  | end_op
  | ilock (ip : Nat)
  | iunlock (ip : Nat)
  | iput (ip : Nat)
  | pipeclose (p : Nat) (writable : Int)
  | piperead (p : Nat) (addr : Int) (n : Int) (r : Int)
  | pipewrite (p : Nat) (addr : Int) (n : Int) (r : Int)
  | readi (ip : Nat) (addr : Int) (off : Nat) (n : Int) (r : Int)
  | writei (ip : Nat) (addr : Int) (off : Nat) (n : Int) (r : Int)
  | cprintf (msg : String)
  deriving DecidableEq, Repr

/-- What the collaborators return, as a function of the trace up to the call
and of the arguments of the call. -/
structure Env where
  piperead : List Event → Nat → Int → Int → Int
  pipewrite : List Event → Nat → Int → Int → Int
  readi : List Event → Nat → Int → Nat → Int → Int
  writei : List Event → Nat → Int → Nat → Int → Int

/-- How a call ends: it returns a value, it panics, it runs into behaviour
that C leaves undefined (signed overflow), or the model ran out of fuel for a
loop. -/
inductive Outcome (α : Type) where
  | ret (a : α)
  | panic (msg : String)
  | undef
  | nofuel
  deriving DecidableEq, Repr

/-- The open-file table and the trace of collaborator calls so far. -/
structure KState where
  ftable : List File
  trace : List Event
  deriving DecidableEq, Repr

/-- Largest value of an `int`. -/
def INT_MAX : Int := 2147483647

/-- Modulus of `uint` arithmetic. -/
def UINT_MOD : Nat := 4294967296

/-- A slot of the zero-initialised table. -/
def zeroFile : File :=
  { type := FD_NONE, ref := 0, readable := 0, writable := 0, pipe := 0, ip := 0, off := 0 }

/-- The table at boot: `NFILE` zeroed slots, nothing called yet. -/
def initState (NFILE : Nat) : KState :=
  { ftable := List.replicate NFILE zeroFile, trace := [] }

/-! ## `filealloc`, `filedup`, `fileclose` -/

/-- The scan of `filealloc`: `for(f = ftable.file; f < ftable.file + NFILE; f++)`
stopping at the first slot with `f->ref == 0`. `i` is the index of the head of
`fs` in the table. -/
def fileallocScan : List File → Nat → Option Nat
  | [], _ => none
  | f :: fs, i => if f.ref = 0 then some i else fileallocScan fs (i + 1)

/-- Embedding of `filealloc`: under the table lock, claim the first slot with
`ref == 0` by setting `ref = 1` (no other field is written) and return it, or
return 0 when there is none. -/
def filealloc (s : KState) : Option Nat × KState :=
  match fileallocScan s.ftable 0 with
  | some i =>
    (some i,
      { ftable := s.ftable.modify (fun f => { f with ref := 1 }) i,
        trace := s.trace ++ [Event.acquire, Event.release] })
  | none => (none, { s with trace := s.trace ++ [Event.acquire, Event.release] })

/-- Embedding of `filedup` on the slot at index `h`. The value returned is the
handle itself. -/
def filedup (s : KState) (h : Nat) : Outcome (Nat × KState) :=
  match s.ftable[h]? with
  | none => Outcome.undef
  | some f =>
    if f.ref < 1 then Outcome.panic "filedup"
    else if f.ref = INT_MAX then Outcome.undef
    else
      Outcome.ret (h,
        { ftable := s.ftable.set h { f with ref := f.ref + 1 },
          trace := s.trace ++ [Event.acquire, Event.release] })

/-- The teardown of `fileclose`, run on the copy `ff` after the lock is
released. -/
def closeTeardown (ff : File) : List Event :=
  if ff.type = FD_PIPE then [Event.pipeclose ff.pipe ff.writable]
  else if ff.type = FD_INODE then [Event.begin_op, Event.iput ff.ip, Event.end_op]
  else []

/-- Embedding of `fileclose` on the slot at index `h`. -/
def fileclose (s : KState) (h : Nat) : Outcome KState :=
  match s.ftable[h]? with
  | none => Outcome.undef
  | some f =>
    if f.ref < 1 then Outcome.panic "fileclose"
    else
      let f1 := { f with ref := f.ref - 1 }
      if f1.ref > 0 then
        Outcome.ret
          { ftable := s.ftable.set h f1,
            trace := s.trace ++ [Event.acquire, Event.release] }
      else
        let ff := f1
        Outcome.ret
          { ftable := s.ftable.set h { f1 with ref := 0, type := FD_NONE },
            trace := s.trace ++ [Event.acquire, Event.release] ++ closeTeardown ff }

/-- A call on the open-file table: `filealloc()`, `filedup(f)` or
`fileclose(f)`, with `f` the slot at index `h`. -/
inductive Op where
  | alloc
  | dup (h : Nat)
  | close (h : Nat)
  deriving DecidableEq, Repr

/-- The state after one call on the table, when the call returns. -/
def stepOp (s : KState) : Op → Outcome KState
  | Op.alloc => Outcome.ret (filealloc s).2
  | Op.dup h =>
    match filedup s h with
    | Outcome.ret (_, s1) => Outcome.ret s1
    | Outcome.panic msg => Outcome.panic msg
    | Outcome.undef => Outcome.undef
    | Outcome.nofuel => Outcome.nofuel
  | Op.close h => fileclose s h

/-- A sequence of calls on the table, run in order; it stops at the first call
that does not return. -/
def runOps : List Op → KState → Outcome KState
  | [], s => Outcome.ret s
  | op :: ops, s =>
    match stepOp s op with
    | Outcome.ret s1 => runOps ops s1
    | Outcome.panic msg => Outcome.panic msg
    | Outcome.undef => Outcome.undef
    | Outcome.nofuel => Outcome.nofuel

/-- The trace of `k` calls that only take and release the table lock. -/
def lockPairs : Nat → List Event
  | 0 => []
  | k + 1 => [Event.acquire, Event.release] ++ lockPairs k

/-- The results of `k` consecutive `filealloc` calls, in order, and the state
after them. -/
def allocN : Nat → KState → List (Option Nat) × KState
  | 0, s => ([], s)
  | k + 1, s => ((filealloc s).1 :: (allocN k (filealloc s).2).1, (allocN k (filealloc s).2).2)

/-- A zeroed slot after `filealloc` has claimed it. -/
def heldFile : File := { zeroFile with ref := 1 }

/-! ## `fileread`, `filewrite` -/

/-- Embedding of `fileread`. `f` is the `struct file` the handle points to,
`tr` the trace so far; the result is the value returned, the `struct file`
afterwards and the trace afterwards. -/
def fileread (env : Env) (f : File) (addr n : Int) (tr : List Event) :
    Outcome (Int × File × List Event) :=
  if f.readable = 0 then Outcome.ret (-1, f, tr)
  else if f.type = FD_PIPE then
    let r := env.piperead tr f.pipe addr n
    Outcome.ret (r, f, tr ++ [Event.piperead f.pipe addr n r])
  else if f.type = FD_INODE then
    let tr1 := tr ++ [Event.ilock f.ip]
    let r := env.readi tr1 f.ip addr f.off n
    let f1 := if r > 0 then { f with off := (f.off + r.toNat) % UINT_MOD } else f
    Outcome.ret (r, f1, tr1 ++ [Event.readi f.ip addr f.off n r, Event.iunlock f.ip])
  else Outcome.panic "fileread"

/-- The constant `max` of `filewrite`: `((MAXOPBLOCKS-1-1-2) / 2) * 512`, with
the truncating division of C. `MAXOPBLOCKS` is a constant of `param.h`. -/
def maxSegment (MAXOPBLOCKS : Int) : Int :=
  Int.tdiv (MAXOPBLOCKS - 1 - 1 - 2) 2 * 512

/-- The text `filewrite` prints when `writei` returns -2. -/
def overflowMsg : String := "ERROR : Allocate overflow\n"

/-- The `while(i < n)` loop of `filewrite` together with the `return` after
it. One unit of fuel is used per test of the loop condition. -/
def filewriteLoop (env : Env) (max addr n : Int) :
    Nat → Int → File → List Event → Outcome (Int × File × List Event)
  | 0, _, _, _ => Outcome.nofuel
  | fuel + 1, i, f, tr =>
    if i < n then
      let n1 := if n - i > max then max else n - i
      let tr1 := tr ++ [Event.begin_op, Event.ilock f.ip]
      let r := env.writei tr1 f.ip (addr + i) f.off n1
      let f1 := if r > 0 then { f with off := (f.off + r.toNat) % UINT_MOD } else f
      let tr2 := tr1 ++ [Event.writei f.ip (addr + i) f.off n1 r, Event.iunlock f.ip,
        Event.end_op]
      if r = -2 then
        Outcome.ret (-2, f1, tr2 ++ [Event.cprintf overflowMsg])
      else if r < 0 then Outcome.ret (if i = n then n else -1, f1, tr2)
      else if r ≠ n1 then Outcome.panic "short filewrite"
      else filewriteLoop env max addr n fuel (i + r) f1 tr2
    else Outcome.ret (if i = n then n else -1, f, tr)

/-- Embedding of `filewrite`, with the loop given `fuel` iterations. -/
def filewrite (env : Env) (MAXOPBLOCKS : Int) (fuel : Nat) (f : File) (addr n : Int)
    (tr : List Event) : Outcome (Int × File × List Event) :=
  if f.writable = 0 then Outcome.ret (-1, f, tr)
  else if f.type = FD_PIPE then
    let r := env.pipewrite tr f.pipe addr n
    Outcome.ret (r, f, tr ++ [Event.pipewrite f.pipe addr n r])
  else if f.type = FD_INODE then
    filewriteLoop env (maxSegment MAXOPBLOCKS) addr n fuel 0 f tr
  else Outcome.panic "filewrite"

/-! ## Reading a trace -/

/-- The lengths asked of `writei`, call by call. -/
def writeLens : List Event → List Int
  | [] => []
  | Event.writei _ _ _ n _ :: es => n :: writeLens es
  | _ :: es => writeLens es

/-- The values `writei` returned, call by call. -/
def writeResults : List Event → List Int
  | [] => []
  | Event.writei _ _ _ _ r :: es => r :: writeResults es
  | _ :: es => writeResults es

/-- The bytes written by the `writei` calls of a trace: the sum of their
positive results. -/
def bytesWritten (es : List Event) : Int :=
  ((writeResults es).filter (fun r => 0 < r)).sum

/-- The events of one segment of `filewrite` (one pass through the loop
body): the transaction and the inode lock around the `writei` call. -/
def segmentEvents (ip : Nat) (addr : Int) (off : Nat) (n1 r : Int) : List Event :=
  [Event.begin_op, Event.ilock ip, Event.writei ip addr off n1 r, Event.iunlock ip,
    Event.end_op]

/-! ## Inputs used to exercise the theorems -/

/-- An inode layer and pipes that always transfer what they are asked to. -/
def okEnv : Env :=
  { piperead := fun _ _ _ n => n
    pipewrite := fun _ _ _ n => n
    readi := fun _ _ _ _ n => n
    writei := fun _ _ _ _ n => n }

/-- An inode layer whose `writei` writes everything it is asked to for its
first `j0` calls and returns `e` from then on. -/
def failEnv (j0 : Nat) (e : Int) : Env :=
  { okEnv with
    writei := fun hist _ _ _ n => if (writeLens hist).length < j0 then n else e }

/-- The trace of a 4000-byte write on `inodeFile` from buffer address 100 with
`MAXOPBLOCKS = 10`, when the second `writei` call returns `e`. -/
def failTrace (e : Int) : List Event :=
  segmentEvents 7 100 10 1536 1536 ++ segmentEvents 7 1636 1546 1536 e

/-- A readable and writable handle on inode 7, at offset 10. -/
def inodeFile : File :=
  { type := FD_INODE, ref := 1, readable := 1, writable := 1, pipe := 0, ip := 7, off := 10 }

/-- A handle that is neither readable nor writable. -/
def closedFile : File :=
  { type := FD_INODE, ref := 1, readable := 0, writable := 0, pipe := 0, ip := 7, off := 10 }

/-- A table of three slots: a pipe end held twice, an inode held once, and a
free slot. -/
def sampleState : KState :=
  { ftable :=
      [{ type := FD_PIPE, ref := 2, readable := 0, writable := 1, pipe := 5, ip := 0, off := 0 },
       inodeFile, zeroFile],
    trace := [] }

/-! ## Block-address codec and `cs_printinfo` -/

/-- The mask `BIT` of `file.c`: the low byte of a block-address field. -/
def BIT : Nat := 255

/-- The pair `(num, length)` that `cs_printinfo` computes from the field
`info_addr` of a direct slot of a `T_CS` inode: `num = info_addr >> 8` and
`length = info_addr & backward_area`, with `backward_area = BIT`. -/
def csDecode (info_addr : Nat) : Nat × Nat :=
  (info_addr >>> 8, info_addr &&& BIT)

/-- Modelled from the spec: the encoder is not in `file.c`. The spec composes
`field = (reference_number << 8) | length` in a block-address field, which is
an unsigned 32-bit value. -/
def csEncode (reference_number length : Nat) : Nat :=
  ((reference_number <<< 8) ||| length) % UINT_MOD

/-- The table `sampleState` after `fileclose` of its inode slot, slot 1. -/
def closedState : KState :=
  { ftable :=
      [{ type := FD_PIPE, ref := 2, readable := 0, writable := 1, pipe := 5, ip := 0, off := 0 },
       { inodeFile with ref := 0, type := FD_NONE }, zeroFile],
    trace := [Event.acquire, Event.release, Event.begin_op, Event.iput 7, Event.end_op] }

/-- The length of the segment `filewrite` issues when `i` bytes are written:
`n1 = n - i`, cut down to `max`. -/
def segLen (n i max : Int) : Int :=
  if n - i > max then max else n - i

/-- An inode layer whose `writei` reports one byte more than it was asked to
write. -/
def longEnv : Env :=
  { okEnv with writei := fun _ _ _ _ n => n + 1 }

/-- The segments of a write of `n` bytes from buffer `addr` to inode `ip` at
initial offset `off0`, as a function of the values `writei` returns: the
segment issued when `i` bytes are written takes its data at `addr + i`, goes
to offset `off0 + i` (a `uint`) and has length `min (n - i) max`; after a
segment that wrote `r` bytes, `i + r` bytes are written. -/
def expectedBlocks (ip : Nat) (addr n max : Int) (off0 : Nat) : Int → List Int → List Event
  | _, [] => []
  | i, r :: rs =>
    segmentEvents ip (addr + i) ((off0 + i.toNat) % UINT_MOD) (min (n - i) max) r
      ++ expectedBlocks ip addr n max off0 (i + r) rs

/-- Modelled from the spec: `struct inode` is declared in `file.h`, which is
not among the sources. These are the fields `cs_printinfo` reads: the inode
number, the type (a `short`), the size in bytes and the block-address slots
(`uint`s), of which the first `NDIRECT` are the direct ones. -/
structure Inode where
  inum : Nat
  type : Int
  size : Nat
  addrs : List Nat
  deriving DecidableEq, Repr

/-- An argument of a `cprintf` call: a string for `%s`, a number for `%d`. -/
inductive PrintArg where
  | str (s : String)
  | num (v : Int)
  deriving DecidableEq, Repr

/-- A `cprintf` call: its format and the values passed after it. -/
structure Print where
  fmt : String
  args : List PrintArg
  deriving DecidableEq, Repr

/-- The `switch (n->ip->type)` of `cs_printinfo`: the line naming the type. -/
def typeLabel (type : Int) : String :=
  if type = 1 then "FILE TYPE: DIR\n"
  else if type = 2 then "FILE TYPE: FILE\n"
  else if type = 3 then "FILE TYPE: DEV\n"
  else if type = 4 then "FILE TYPE: CS\n"
  else "FILE TYPE: NO TYPE\n"

/-- The line `cs_printinfo` prints for direct slot `i` of a plain file. -/
def fileLine (i : Nat) (info_addr : Nat) : Print :=
  { fmt := "[%d] %d\n", args := [PrintArg.num i, PrintArg.num info_addr] }

/-- The line `cs_printinfo` prints for direct slot `i` of a `T_CS` file, with
`num` and `length` computed as in `csDecode`. -/
def csLine (i : Nat) (info_addr : Nat) : Print :=
  { fmt := "[%d] %d (num : %d, length: %d)\n",
    args := [PrintArg.num i, PrintArg.num info_addr, PrintArg.num (csDecode info_addr).1,
      PrintArg.num (csDecode info_addr).2] }

/-- The loop `for (int i = 0; i < NDIRECT; i++)` of `cs_printinfo`, with `k`
iterations left from index `i`: a line for each slot whose field is not 0. A
slot beyond the end of `addrs` reads as 0. -/
def directLoop (addrs : List Nat) (line : Nat → Nat → Print) : Nat → Nat → List Print
  | 0, _ => []
  | k + 1, i =>
    (if addrs.getD i 0 ≠ 0 then [line i (addrs.getD i 0)] else [])
      ++ directLoop addrs line k (i + 1)

/-- Embedding of `cs_printinfo`: `n` is the `struct file`, `ip` the inode
`n->ip` points to, `NDIRECT` the constant of `fs.h`. The result is the
`struct file` and the inode afterwards and the `cprintf` calls made. -/
def cs_printinfo (NDIRECT : Nat) (n : File) (ip : Inode) (fname : String) :
    File × Inode × List Print :=
  (n, ip,
    [{ fmt := "FILE NAME: %s\n", args := [PrintArg.str fname] },
     { fmt := "INODE NUM: %d\n", args := [PrintArg.num ip.inum] },
     { fmt := typeLabel ip.type, args := [] },
     { fmt := "FILE SIZE: %d Bytes\n", args := [PrintArg.num ip.size] },
     { fmt := "DIRECT BLOCK INFO: \n", args := [] }]
    ++ (if ip.type = 2 then directLoop ip.addrs fileLine NDIRECT 0
        else if ip.type = 4 then directLoop ip.addrs csLine NDIRECT 0
        else [])
    ++ [{ fmt := "\n", args := [] }, { fmt := "\n", args := [] }])

/-- A `T_CS` inode with 12 direct slots, two of them in use. -/
def csInode : Inode :=
  { inum := 23, type := 4, size := 1536,
    addrs := [0x00001203, 0, 0x00002a01, 0, 0, 0, 0, 0, 0, 0, 0, 0, 0] }

/-- The number of segments a write of `n` bytes needs, `⌈n / max⌉` for a
positive `max` (0 when `n ≤ 0`). -/
def segmentBound (n max : Int) : Nat :=
  ((n + max - 1) / max).toNat

/-! ## Lemmas on traces -/

theorem writeLens_append (a b : List Event) :
    writeLens (a ++ b) = writeLens a ++ writeLens b := by
  induction a with
  | nil => rfl
  | cons e es ih => cases e <;> simp [writeLens, ih]

theorem writeResults_append (a b : List Event) :
    writeResults (a ++ b) = writeResults a ++ writeResults b := by
  induction a with
  | nil => rfl
  | cons e es ih => cases e <;> simp [writeResults, ih]

/-! ## The loop of `filewrite` -/

theorem filewriteLoop_exit (env : Env) (max addr n : Int) (fuel : Nat) (i : Int) (f : File)
    (tr : List Event) (hi : ¬ i < n) :
    filewriteLoop env max addr n (fuel + 1) i f tr =
      Outcome.ret (if i = n then n else -1, f, tr) := by
  rw [filewriteLoop]; simp [hi]

/-- One pass through the loop body when `writei` writes the whole segment. -/
theorem filewriteLoop_step_ok (env : Env) (max addr n : Int) (fuel : Nat) (i : Int) (f : File)
    (tr : List Event) (hi : i < n)
    (hres : env.writei (tr ++ [Event.begin_op, Event.ilock f.ip]) f.ip (addr + i) f.off
      (if n - i > max then max else n - i) = (if n - i > max then max else n - i))
    (hpos : 0 < (if n - i > max then max else n - i)) :
    filewriteLoop env max addr n (fuel + 1) i f tr =
      filewriteLoop env max addr n fuel (i + (if n - i > max then max else n - i))
        { f with off := (f.off + (if n - i > max then max else n - i).toNat) % UINT_MOD }
        (tr ++ segmentEvents f.ip (addr + i) f.off (if n - i > max then max else n - i)
          (if n - i > max then max else n - i)) := by
  generalize hn1 : (if n - i > max then max else n - i) = n1 at hres hpos ⊢
  rw [filewriteLoop]
  simp only [hi, if_true, hn1, hres]
  have h2 : ¬ n1 = -2 := by omega
  have h3 : ¬ n1 < 0 := by omega
  simp [h2, h3, hpos, segmentEvents]

theorem filewriteLoop_all_ok (env : Env) (max addr n r : Int)
    (hok : ∀ h ip a off n1, env.writei h ip a off n1 = n1)
    (hr0 : 0 < r) (hr : r < max) :
    ∀ (k fuel : Nat) (i : Int) (f : File) (tr : List Event), k + 2 ≤ fuel →
      n - i = k * max + r →
      ∃ f1 new, filewriteLoop env max addr n fuel i f tr = Outcome.ret (n, f1, tr ++ new)
        ∧ new.count Event.begin_op = k + 1 ∧ new.count Event.end_op = k + 1
        ∧ writeLens new = List.replicate k max ++ [r]
        ∧ writeResults new = List.replicate k max ++ [r] := by
  intro k
  induction k with
  | zero =>
    intro fuel i f tr hf hn
    obtain ⟨m, rfl⟩ : ∃ m, fuel = m + 2 := ⟨fuel - 2, by omega⟩
    have hn1 : (if n - i > max then max else n - i) = r := by
      simp at hn; rw [if_neg (by omega)]; omega
    rw [filewriteLoop_step_ok env max addr n (m + 1) i f tr (by simp at hn; omega)
      (hok _ _ _ _ _) (by rw [hn1]; exact hr0)]
    have hin : i + r = n := by simp at hn; omega
    rw [hn1, hin, filewriteLoop_exit env max addr n m n _ _ (by omega)]
    exact ⟨_, segmentEvents f.ip (addr + i) f.off r r, by rw [if_pos rfl],
      by simp [segmentEvents], by simp [segmentEvents], by simp [segmentEvents, writeLens],
      by simp [segmentEvents, writeResults]⟩
  | succ k ih =>
    intro fuel i f tr hf hn
    obtain ⟨m, rfl⟩ : ∃ m, fuel = m + 1 := ⟨fuel - 1, by omega⟩
    have hkm : 0 ≤ (k : Int) * max := Int.mul_nonneg (Int.natCast_nonneg k) (by omega)
    have hn2 : n - i = k * max + r + max := by rw [hn]; push_cast; ring
    have hn1 : (if n - i > max then max else n - i) = max := by
      rw [if_pos (by omega)]
    rw [filewriteLoop_step_ok env max addr n m i f tr (by omega)
      (hok _ _ _ _ _) (by rw [hn1]; omega)]
    rw [hn1]
    obtain ⟨f1, new, h1, h2, h3, h4, h5⟩ := ih m (i + max)
      { f with off := (f.off + max.toNat) % UINT_MOD }
      (tr ++ segmentEvents f.ip (addr + i) f.off max max) (by omega) (by omega)
    refine ⟨f1, segmentEvents f.ip (addr + i) f.off max max ++ new, ?_, ?_, ?_, ?_, ?_⟩
    · rw [h1]; simp
    · simp [segmentEvents, h2]
    · simp [segmentEvents, h3]
    · rw [writeLens_append, h4]; simp [segmentEvents, writeLens, List.replicate_succ]
    · rw [writeResults_append, h5]; simp [segmentEvents, writeResults, List.replicate_succ]

/-! ## Write chunking -/

/-- C1. Write chunking: on a writable inode-backed handle, with `max` the
segment bound `((MAXOPBLOCKS-4)/2)*512` and `0 < r < max`, if every `writei`
call returns the length it was asked to write, then `filewrite` with
`n = k * max + r` returns `n` (for any fuel of at least `k + 2` loop tests),
having issued exactly `k + 1` `begin_op` and `k + 1` `end_op` calls and `k + 1`
`writei` calls, the first `k` of length `max` and the last of length `r`, each
at most `max`. -/
theorem filewrite_chunking (env : Env) (MAXOPBLOCKS : Int) (f : File) (addr : Int) (k : Nat)
    (r : Int) (tr : List Event) (fuel : Nat)
    (hw : f.writable ≠ 0) (ht : f.type = FD_INODE)
    (hr0 : 0 < r) (hr : r < maxSegment MAXOPBLOCKS)
    (hok : ∀ h ip a off n1, env.writei h ip a off n1 = n1)
    (hfuel : k + 2 ≤ fuel) :
    ∃ f1 new,
      filewrite env MAXOPBLOCKS fuel f addr (k * maxSegment MAXOPBLOCKS + r) tr =
        Outcome.ret (k * maxSegment MAXOPBLOCKS + r, f1, tr ++ new)
      ∧ new.count Event.begin_op = k + 1 ∧ new.count Event.end_op = k + 1
      ∧ writeLens new = List.replicate k (maxSegment MAXOPBLOCKS) ++ [r]
      ∧ writeResults new = List.replicate k (maxSegment MAXOPBLOCKS) ++ [r]
      ∧ ∀ x ∈ writeLens new, x ≤ maxSegment MAXOPBLOCKS := by
  obtain ⟨f1, new, h1, h2, h3, h4, h5⟩ :=
    filewriteLoop_all_ok env (maxSegment MAXOPBLOCKS) addr (k * maxSegment MAXOPBLOCKS + r) r
      hok hr0 hr k fuel 0 f tr hfuel (by ring)
  refine ⟨f1, new, ?_, h2, h3, h4, h5, ?_⟩
  · rw [filewrite, if_neg hw, if_neg (by rw [ht]; decide), if_pos ht, h1]
  · intro x hx
    rw [h4] at hx
    rcases List.mem_append.1 hx with hx | hx
    · rw [(List.mem_replicate.1 hx).2]
    · rw [List.mem_singleton.1 hx]; exact le_of_lt hr

/-- Witness for `filewrite_chunking`: 4000 bytes with `MAXOPBLOCKS = 10`
(`max = 1536`), that is `k = 2`, `r = 928`. -/
theorem filewrite_chunking_witness :
    ∃ f1 new,
      filewrite okEnv 10 4 inodeFile 100 (((2 : Nat) : Int) * maxSegment 10 + 928) [] =
        Outcome.ret (((2 : Nat) : Int) * maxSegment 10 + 928, f1, [] ++ new)
      ∧ new.count Event.begin_op = 2 + 1 ∧ new.count Event.end_op = 2 + 1
      ∧ writeLens new = List.replicate 2 (maxSegment 10) ++ [928]
      ∧ writeResults new = List.replicate 2 (maxSegment 10) ++ [928]
      ∧ ∀ x ∈ writeLens new, x ≤ maxSegment 10 :=
  filewrite_chunking okEnv 10 inodeFile 100 2 928 [] 4 (by decide) rfl (by decide) (by decide)
    (fun _ _ _ _ _ => rfl) (by decide)


theorem filewriteLoop_step_overflow (env : Env) (max addr n : Int) (fuel : Nat) (i : Int)
    (f : File) (tr : List Event) (hi : i < n)
    (hres : env.writei (tr ++ [Event.begin_op, Event.ilock f.ip]) f.ip (addr + i) f.off
      (if n - i > max then max else n - i) = -2) :
    filewriteLoop env max addr n (fuel + 1) i f tr =
      Outcome.ret (-2, f,
        tr ++ segmentEvents f.ip (addr + i) f.off (if n - i > max then max else n - i) (-2)
          ++ [Event.cprintf overflowMsg]) := by
  rw [filewriteLoop]
  simp [hi, hres, segmentEvents]

theorem uint_add_add (off a b : Nat) :
    ((off + a) % UINT_MOD + b) % UINT_MOD = (off + (a + b)) % UINT_MOD := by
  rw [Nat.mod_add_mod, Nat.add_assoc]

theorem filewriteLoop_overflow (env : Env) (mx : Nat) (addr n : Int) (hmax : 0 < mx)
    (tr0 : List Event) (j0 : Nat)
    (hfull : ∀ hist ip a off n1, tr0 <+: hist →
      (writeLens (hist.drop tr0.length)).length < j0 → env.writei hist ip a off n1 = n1)
    (hovf : ∀ hist ip a off n1, tr0 <+: hist →
      (writeLens (hist.drop tr0.length)).length = j0 → env.writei hist ip a off n1 = -2) :
    ∀ (m fuel : Nat) (i : Int) (f : File) (done : List Event), m + 1 ≤ fuel →
      (writeLens done).length + m = j0 → (m * mx : Int) < n - i → f.off < UINT_MOD →
      ∃ new, filewriteLoop env mx addr n fuel i f (tr0 ++ done) =
          Outcome.ret (-2, { f with off := (f.off + m * mx) % UINT_MOD }, tr0 ++ done ++ new)
        ∧ writeLens new = List.replicate m (mx : Int) ++
            [if n - i - m * mx > mx then (mx : Int) else n - i - m * mx]
        ∧ writeResults new = List.replicate m (mx : Int) ++ [-2]
        ∧ new.count Event.begin_op = m + 1 ∧ new.count Event.end_op = m + 1 := by
  intro m
  induction m with
  | zero =>
    intro fuel i f done hf hlen hn hoff
    obtain ⟨k, rfl⟩ : ∃ k, fuel = k + 1 := ⟨fuel - 1, by omega⟩
    have hi : i < n := by simp at hn; omega
    have hcall := hovf (tr0 ++ done ++ [Event.begin_op, Event.ilock f.ip]) f.ip (addr + i)
      f.off (if n - i > mx then mx else n - i) ⟨done ++ [Event.begin_op, Event.ilock f.ip], by simp⟩
      (by simp [writeLens_append, writeLens]; omega)
    rw [filewriteLoop_step_overflow env mx addr n k i f _ hi hcall]
    refine ⟨segmentEvents f.ip (addr + i) f.off (if n - i > mx then mx else n - i) (-2)
      ++ [Event.cprintf overflowMsg], ?_, ?_, ?_, ?_, ?_⟩
    · simp [Nat.mod_eq_of_lt hoff]
    all_goals simp [segmentEvents, writeLens, writeResults, writeLens_append,
      writeResults_append]
  | succ m ih =>
    intro fuel i f done hf hlen hn hoff
    obtain ⟨k, rfl⟩ : ∃ k, fuel = k + 1 := ⟨fuel - 1, by omega⟩
    have hm : 0 ≤ (m : Int) * mx := by positivity
    have hn2 : (m : Int) * mx + mx < n - i := by push_cast at hn; linarith
    have hn1 : (if n - i > mx then (mx : Int) else n - i) = mx := by
      rw [if_pos (by omega)]
    have hcall := hfull (tr0 ++ done ++ [Event.begin_op, Event.ilock f.ip]) f.ip (addr + i)
      f.off (if n - i > mx then mx else n - i) ⟨done ++ [Event.begin_op, Event.ilock f.ip], by simp⟩
      (by simp [writeLens_append, writeLens]; omega)
    rw [filewriteLoop_step_ok env mx addr n k i f _ (by omega) hcall
      (by rw [hn1]; exact_mod_cast hmax), hn1]
    obtain ⟨new, h1, h2, h3, h4, h5⟩ := ih k (i + mx)
      { f with off := (f.off + (mx : Int).toNat) % UINT_MOD }
      (done ++ segmentEvents f.ip (addr + i) f.off mx mx) (by omega)
      (by simp [writeLens_append, segmentEvents, writeLens]; omega) (by omega)
      (Nat.mod_lt _ (by decide))
    refine ⟨segmentEvents f.ip (addr + i) f.off mx mx ++ new, ?_, ?_, ?_, ?_, ?_⟩
    · rw [List.append_assoc tr0] at *
      rw [h1]
      simp only [Int.toNat_ofNat, uint_add_add, List.append_assoc]
      have e : mx + m * mx = (m + 1) * mx := by ring
      rw [e]
    · rw [writeLens_append, h2]
      have : n - (i + mx) - m * mx = n - i - (m + 1 : Nat) * mx := by push_cast; ring
      rw [this]; simp [segmentEvents, writeLens, List.replicate_succ]
    · rw [writeResults_append, h3]; simp [segmentEvents, writeResults, List.replicate_succ]
    · simp [segmentEvents, h4]
    · simp [segmentEvents, h5]

/-! ## Allocation overflow -/

/-- C2. Allocation overflow: on a writable inode-backed handle (with a positive
segment bound `max`), if the `writei` calls of segments `1..j-1` each return
the length asked and the call of segment `j` returns -2, then `filewrite`
returns -2 (which is not the generic failure value -1), issues exactly `j`
segments (none after `j`), and leaves the handle with its offset equal to the
initial offset plus the sum of the lengths of segments `1..j-1`, in `uint`
arithmetic; no other field changes. -/
theorem filewrite_overflow (env : Env) (MAXOPBLOCKS : Int) (f : File) (addr n : Int)
    (tr : List Event) (j fuel : Nat)
    (hw : f.writable ≠ 0) (ht : f.type = FD_INODE) (hoff : f.off < UINT_MOD)
    (hmax : 0 < maxSegment MAXOPBLOCKS) (hj : 1 ≤ j)
    (hn : ((j - 1 : Nat) : Int) * maxSegment MAXOPBLOCKS < n)
    (hfull : ∀ hist ip a off n1, tr <+: hist →
      (writeLens (hist.drop tr.length)).length + 1 < j → env.writei hist ip a off n1 = n1)
    (hovf : ∀ hist ip a off n1, tr <+: hist →
      (writeLens (hist.drop tr.length)).length + 1 = j → env.writei hist ip a off n1 = -2)
    (hfuel : j ≤ fuel) :
    ∃ f1 new,
      filewrite env MAXOPBLOCKS fuel f addr n tr = Outcome.ret (-2, f1, tr ++ new)
      ∧ (-2 : Int) ≠ -1
      ∧ (writeLens new).length = j
      ∧ new.count Event.begin_op = j ∧ new.count Event.end_op = j
      ∧ writeResults new = (writeLens new).take (j - 1) ++ [-2]
      ∧ (writeLens new).take (j - 1) = List.replicate (j - 1) (maxSegment MAXOPBLOCKS)
      ∧ f1 = { f with off := (f.off + (((writeLens new).take (j - 1)).sum).toNat) % UINT_MOD }
      ∧ (f.off + (((writeLens new).take (j - 1)).sum).toNat < UINT_MOD →
          f1.off = f.off + (((writeLens new).take (j - 1)).sum).toNat) := by
  obtain ⟨mx, hmx⟩ : ∃ mx : Nat, maxSegment MAXOPBLOCKS = mx :=
    ⟨(maxSegment MAXOPBLOCKS).toNat, (Int.toNat_of_nonneg (le_of_lt hmax)).symm⟩
  obtain ⟨m, rfl⟩ : ∃ m, j = m + 1 := ⟨j - 1, by omega⟩
  rw [hmx] at hn hmax ⊢
  simp only [Nat.add_sub_cancel] at hn ⊢
  obtain ⟨new, h1, h2, h3, h4, h5⟩ := filewriteLoop_overflow env mx addr n
    (by exact_mod_cast hmax) tr m
    (fun hist ip a off n1 hp hl => hfull hist ip a off n1 hp (by omega))
    (fun hist ip a off n1 hp hl => hovf hist ip a off n1 hp (by omega))
    m fuel 0 f [] hfuel (by simp [writeLens]) (by simpa using hn) hoff
  have htake : (writeLens new).take m = List.replicate m (mx : Int) := by
    rw [h2, List.take_left' (by simp)]
  have hsum : (((writeLens new).take m).sum).toNat = m * mx := by
    rw [htake, List.sum_replicate, nsmul_eq_mul]
    exact_mod_cast Int.toNat_ofNat (m * mx)
  refine ⟨{ f with off := (f.off + m * mx) % UINT_MOD }, new, ?_, by decide, ?_, h4, h5, ?_,
    htake, ?_, ?_⟩
  · rw [filewrite, if_neg hw, if_neg (by rw [ht]; decide), if_pos ht, hmx]
    simpa using h1
  · rw [h2]; simp
  · rw [h3, htake]
  · rw [hsum]
  · rw [hsum]; intro h; exact Nat.mod_eq_of_lt h

/-- Witness for `filewrite_overflow`: a write of 4000 bytes with
`MAXOPBLOCKS = 10` whose second segment overflows. -/
theorem filewrite_overflow_witness :
    ∃ f1 new,
      filewrite (failEnv 1 (-2)) 10 2 inodeFile 100 4000 [] = Outcome.ret (-2, f1, [] ++ new)
      ∧ (-2 : Int) ≠ -1
      ∧ (writeLens new).length = 2
      ∧ new.count Event.begin_op = 2 ∧ new.count Event.end_op = 2
      ∧ writeResults new = (writeLens new).take (2 - 1) ++ [-2]
      ∧ (writeLens new).take (2 - 1) = List.replicate (2 - 1) (maxSegment 10)
      ∧ f1 = { inodeFile with
          off := (inodeFile.off + (((writeLens new).take (2 - 1)).sum).toNat) % UINT_MOD }
      ∧ (inodeFile.off + (((writeLens new).take (2 - 1)).sum).toNat < UINT_MOD →
          f1.off = inodeFile.off + (((writeLens new).take (2 - 1)).sum).toNat) :=
  filewrite_overflow (failEnv 1 (-2)) 10 inodeFile 100 4000 [] 2 2 (by decide) rfl (by decide)
    (by decide) (by decide) (by decide)
    (fun hist _ _ _ n1 _ hl => by
      simp only [List.length_nil, List.drop_zero] at hl
      show (if (writeLens hist).length < 1 then n1 else -2) = n1
      rw [if_pos (by omega)])
    (fun hist _ _ _ n1 _ hl => by
      simp only [List.length_nil, List.drop_zero] at hl
      show (if (writeLens hist).length < 1 then n1 else -2) = -2
      rw [if_neg (by omega)])
    (by decide)

/-! ## Result and committed offset -/

theorem bytesWritten_append (a b : List Event) :
    bytesWritten (a ++ b) = bytesWritten a + bytesWritten b := by
  simp [bytesWritten, writeResults_append]

theorem bytesWritten_nonneg (a : List Event) : 0 ≤ bytesWritten a := by
  unfold bytesWritten
  apply List.sum_nonneg
  intro x hx
  have := (List.mem_filter.1 hx).2
  simp at this
  omega

theorem bytesWritten_segment (ip : Nat) (addr : Int) (off : Nat) (n1 r : Int) :
    bytesWritten (segmentEvents ip addr off n1 r) = if 0 < r then r else 0 := by
  by_cases h : 0 < r <;> simp [bytesWritten, segmentEvents, writeResults, h]

theorem writeResults_segment (ip : Nat) (addr : Int) (off : Nat) (n1 r : Int) :
    writeResults (segmentEvents ip addr off n1 r) = [r] := by
  simp [segmentEvents, writeResults]

theorem singleton_eq_append_cons {a r : Int} {pre post : List Int}
    (h : [a] = pre ++ r :: post) : pre = [] ∧ r = a ∧ post = [] := by
  cases pre with
  | nil => simp at h; exact ⟨rfl, h.1.symm, h.2⟩
  | cons x xs => simp at h

/-- The shape of every run of the loop that returns. -/
theorem filewriteLoop_ret (env : Env) (max addr n : Int) :
    ∀ (fuel : Nat) (i : Int) (f : File) (tr : List Event) (v : Int) (f1 : File)
      (tr1 : List Event), f.off < UINT_MOD →
      filewriteLoop env max addr n fuel i f tr = Outcome.ret (v, f1, tr1) →
      ∃ new, tr1 = tr ++ new
        ∧ f1 = { f with off := (f.off + (bytesWritten new).toNat) % UINT_MOD }
        ∧ (i + bytesWritten new = n → v = n) ∧ (i + bytesWritten new ≠ n → v < 0)
        ∧ ∀ pre r post, writeResults new = pre ++ r :: post → r < 0 →
            post = [] ∧ pre.sum = bytesWritten new ∧ (r ≠ -2 → v = -1) ∧ (r = -2 → v = -2) := by
  intro fuel
  induction fuel with
  | zero => intro i f tr v f1 tr1 _ h; simp [filewriteLoop] at h
  | succ fuel ih =>
    intro i f tr v f1 tr1 hoff h
    by_cases hi : i < n
    · rw [filewriteLoop] at h
      simp only [hi, if_true] at h
      generalize hn1 : (if n - i > max then max else n - i) = n1 at h
      generalize hr : env.writei (tr ++ [Event.begin_op, Event.ilock f.ip]) f.ip (addr + i)
        f.off n1 = r at h
      by_cases h2 : r = -2
      · subst h2
        simp at h
        obtain ⟨rfl, rfl, rfl⟩ := h
        refine ⟨segmentEvents f.ip (addr + i) f.off n1 (-2) ++ [Event.cprintf overflowMsg],
          by simp [segmentEvents], ?_, ?_, ?_, ?_⟩
        · simp [bytesWritten, segmentEvents, writeResults, writeResults_append,
            Nat.mod_eq_of_lt hoff]
        · simp [bytesWritten, segmentEvents, writeResults, writeResults_append]; omega
        · simp
        · intro pre r post hpre hr0
          rw [writeResults_append, writeResults_segment] at hpre
          obtain ⟨rfl, rfl, rfl⟩ := singleton_eq_append_cons hpre
          simp [bytesWritten, segmentEvents, writeResults, writeResults_append]
      · simp only [h2, if_false] at h
        by_cases h3 : r < 0
        · have hr0 : ¬ r > 0 := by omega
          have hin : ¬ i = n := by omega
          simp only [h3, hr0, hin, if_true, if_false] at h
          simp at h
          obtain ⟨rfl, rfl, rfl⟩ := h
          refine ⟨segmentEvents f.ip (addr + i) f.off n1 r, by simp [segmentEvents], ?_, ?_,
            ?_, ?_⟩
          · simp [bytesWritten_segment, hr0, Nat.mod_eq_of_lt hoff]
          · simp [bytesWritten_segment, hr0]; omega
          · simp
          · intro pre r1 post hpre hr1
            rw [writeResults_segment] at hpre
            obtain ⟨rfl, rfl, rfl⟩ := singleton_eq_append_cons hpre
            simp [bytesWritten_segment, hr0, h2]
        · simp only [h3, if_false] at h
          by_cases h4 : r = n1
          · simp only [h4, ne_eq, not_true_eq_false, if_false] at h
            have hstep : tr ++ [Event.begin_op, Event.ilock f.ip] ++
                [Event.writei f.ip (addr + i) f.off n1 n1, Event.iunlock f.ip, Event.end_op]
                = tr ++ segmentEvents f.ip (addr + i) f.off n1 n1 := by
              simp [segmentEvents]
            have hn0 : 0 ≤ n1 := by omega
            have hf : (if n1 > 0 then { f with off := (f.off + n1.toNat) % UINT_MOD } else f)
                = { f with off := (f.off + n1.toNat) % UINT_MOD } := by
              by_cases hp : n1 > 0
              · rw [if_pos hp]
              · have h0 : n1 = 0 := by omega
                simp [h0, Nat.mod_eq_of_lt hoff]
            rw [hstep, hf] at h
            obtain ⟨new, e1, e2, e3, e4, e5⟩ := ih (i + n1) _ _ v f1 tr1
              (Nat.mod_lt _ (by decide)) h
            have hb := bytesWritten_nonneg new
            have hbs : bytesWritten (segmentEvents f.ip (addr + i) f.off n1 n1 ++ new)
                = n1 + bytesWritten new := by
              rw [bytesWritten_append, bytesWritten_segment]
              split_ifs <;> omega
            refine ⟨segmentEvents f.ip (addr + i) f.off n1 n1 ++ new, by rw [e1]; simp, ?_, ?_,
              ?_, ?_⟩
            · rw [e2, hbs, Int.toNat_add hn0 hb]
              simp [uint_add_add, Nat.add_assoc]
            · rw [hbs]; intro hh; exact e3 (by omega)
            · rw [hbs]; intro hh; exact e4 (by omega)
            · intro pre r1 post hpre hr1
              rw [writeResults_append, writeResults_segment, hbs] at *
              cases pre with
              | nil =>
                simp at hpre
                omega
              | cons x xs =>
                simp at hpre
                obtain ⟨hx, hrest⟩ := hpre
                obtain ⟨p1, p2, p3, p4⟩ := e5 xs r1 post hrest hr1
                refine ⟨p1, ?_, p3, p4⟩
                simp [← hx, p2]
          · simp [h4] at h
    · rw [filewriteLoop_exit env max addr n fuel i f tr hi] at h
      simp at h
      obtain ⟨rfl, rfl, rfl⟩ := h
      refine ⟨[], by simp, by simp [bytesWritten, writeResults, Nat.mod_eq_of_lt hoff], ?_, ?_, ?_⟩
      · intro h; simp [bytesWritten, writeResults] at h; simp [h]
      · intro h; simp [bytesWritten, writeResults] at h; simp [h]
      · intro pre r post hpre; simp [bytesWritten, writeResults] at hpre

/-- With a positive segment bound, `(n - i) + 1` tests of the loop condition
are enough: the loop returns or panics on a short write. -/
theorem filewriteLoop_terminates (env : Env) (max addr n : Int) (hmax : 0 < max) :
    ∀ (fuel : Nat) (i : Int) (f : File) (tr : List Event), (n - i).toNat < fuel →
      (∃ x, filewriteLoop env max addr n fuel i f tr = Outcome.ret x)
      ∨ filewriteLoop env max addr n fuel i f tr = Outcome.panic "short filewrite" := by
  intro fuel
  induction fuel with
  | zero => intro i f tr h; omega
  | succ fuel ih =>
    intro i f tr h
    by_cases hi : i < n
    · rw [filewriteLoop]
      simp only [hi, if_true]
      generalize hn1 : (if n - i > max then max else n - i) = n1
      generalize env.writei (tr ++ [Event.begin_op, Event.ilock f.ip]) f.ip (addr + i)
        f.off n1 = r
      have hn1pos : 0 < n1 := by rw [← hn1]; split_ifs <;> omega
      by_cases h2 : r = -2
      · left; rw [if_pos h2]; exact ⟨_, rfl⟩
      · rw [if_neg h2]
        by_cases h3 : r < 0
        · left; rw [if_pos h3]; exact ⟨_, rfl⟩
        · rw [if_neg h3]
          by_cases h4 : r = n1
          · rw [if_neg (by simpa using h4)]
            exact ih _ _ _ (by omega)
          · right; rw [if_pos h4]
    · left
      rw [filewriteLoop_exit env max addr n fuel i f tr hi]
      exact ⟨_, rfl⟩

/-- C3. Write result and committed offset: whenever `filewrite` on a writable
inode-backed handle returns, with `new` the calls it made, the result is `n`
if the bytes written over all segments total `n` and is negative otherwise
(so, for `n ≥ 0`, it is `n` exactly when the total is `n`); in both cases the
offset is the initial offset plus the bytes written (in `uint` arithmetic) and
no other field changes. In particular, if the `writei` call of some segment
returns a negative value other than -2, that call is the last one, the result
is -1, and the offset is the initial offset plus what the earlier segments
wrote. The call does return, or panics on a short write, once the segment
bound is positive and the fuel exceeds `n`. -/
theorem filewrite_result_offset (env : Env) (MAXOPBLOCKS : Int) (fuel : Nat) (f : File)
    (addr n : Int) (tr : List Event)
    (hw : f.writable ≠ 0) (ht : f.type = FD_INODE) (hoff : f.off < UINT_MOD) :
    (∀ v f1 tr1, filewrite env MAXOPBLOCKS fuel f addr n tr = Outcome.ret (v, f1, tr1) →
      ∃ new, tr1 = tr ++ new
        ∧ (bytesWritten new = n → v = n) ∧ (bytesWritten new ≠ n → v < 0)
        ∧ (0 ≤ n → (v = n ↔ bytesWritten new = n))
        ∧ f1 = { f with off := (f.off + (bytesWritten new).toNat) % UINT_MOD }
        ∧ ∀ pre r post, writeResults new = pre ++ r :: post → r < 0 → r ≠ -2 →
            post = [] ∧ v = -1 ∧ f1.off = (f.off + pre.sum.toNat) % UINT_MOD)
    ∧ (0 < maxSegment MAXOPBLOCKS → n.toNat < fuel →
        (∃ x, filewrite env MAXOPBLOCKS fuel f addr n tr = Outcome.ret x)
        ∨ filewrite env MAXOPBLOCKS fuel f addr n tr = Outcome.panic "short filewrite") := by
  have hfw : filewrite env MAXOPBLOCKS fuel f addr n tr
      = filewriteLoop env (maxSegment MAXOPBLOCKS) addr n fuel 0 f tr := by
    rw [filewrite, if_neg hw, if_neg (by rw [ht]; decide), if_pos ht]
  rw [hfw]
  constructor
  · intro v f1 tr1 hret
    obtain ⟨new, e1, e2, e3, e4, e5⟩ :=
      filewriteLoop_ret env (maxSegment MAXOPBLOCKS) addr n fuel 0 f tr v f1 tr1 hoff hret
    refine ⟨new, e1, ?_, ?_, ?_, e2, ?_⟩
    · intro h; exact e3 (by omega)
    · intro h; exact e4 (by omega)
    · intro hn
      constructor
      · intro hv
        by_contra hne
        have := e4 (by omega)
        omega
      · intro h; exact e3 (by omega)
    · intro pre r post hpre hr hr2
      obtain ⟨p1, p2, p3, _⟩ := e5 pre r post hpre hr
      refine ⟨p1, p3 hr2, ?_⟩
      rw [e2, p2]
  · intro hmax hfuel
    exact filewriteLoop_terminates env (maxSegment MAXOPBLOCKS) addr n hmax fuel 0 f tr
      (by simpa using hfuel)

/-- Witness for `filewrite_result_offset`: a write of 4000 bytes whose second
segment fails with -1 returns -1 with the offset advanced by the first segment
only. -/
theorem filewrite_result_offset_witness :
    filewrite (failEnv 1 (-1)) 10 5 inodeFile 100 4000 [] =
      Outcome.ret (-1, { inodeFile with off := 1546 }, failTrace (-1))
    ∧ ∃ new, failTrace (-1) = [] ++ new
      ∧ (bytesWritten new = 4000 → (-1 : Int) = 4000)
      ∧ (bytesWritten new ≠ 4000 → (-1 : Int) < 0)
      ∧ ((0 : Int) ≤ 4000 → ((-1 : Int) = 4000 ↔ bytesWritten new = 4000))
      ∧ { inodeFile with off := 1546 }
          = { inodeFile with off := (inodeFile.off + (bytesWritten new).toNat) % UINT_MOD }
      ∧ ∀ pre r post, writeResults new = pre ++ r :: post → r < 0 → r ≠ -2 →
          post = [] ∧ (-1 : Int) = -1
          ∧ ({ inodeFile with off := 1546 } : File).off
            = (inodeFile.off + pre.sum.toNat) % UINT_MOD :=
  ⟨rfl,
    (filewrite_result_offset (failEnv 1 (-1)) 10 5 inodeFile 100 4000 [] (by decide) rfl
      (by decide)).1 (-1) { inodeFile with off := 1546 } (failTrace (-1)) rfl⟩

/-! ## Capability check -/

/-- C4. Capability check: `fileread` on a handle with `readable == 0` returns
-1, and `filewrite` on a handle with `writable == 0` returns -1; whatever the
kind of the handle, the length asked and the collaborators, the trace of
collaborator calls and the handle (its offset included) are unchanged. -/
theorem capability_check (env : Env) (MAXOPBLOCKS : Int) (fuel : Nat) (f : File)
    (addr n : Int) (tr : List Event) :
    (f.readable = 0 → fileread env f addr n tr = Outcome.ret (-1, f, tr))
    ∧ (f.writable = 0 → filewrite env MAXOPBLOCKS fuel f addr n tr = Outcome.ret (-1, f, tr)) := by
  constructor
  · intro h; rw [fileread, if_pos h]
  · intro h; rw [filewrite, if_pos h]

/-- Witness for `capability_check`, on a handle with both flags clear; the
write needs no fuel, as the loop is never reached. -/
theorem capability_check_witness :
    fileread okEnv closedFile 100 5 [Event.acquire] =
      Outcome.ret (-1, closedFile, [Event.acquire])
    ∧ filewrite okEnv 10 0 closedFile 100 5 [Event.acquire] =
      Outcome.ret (-1, closedFile, [Event.acquire]) :=
  ⟨(capability_check okEnv 10 0 closedFile 100 5 [Event.acquire]).1 rfl,
    (capability_check okEnv 10 0 closedFile 100 5 [Event.acquire]).2 rfl⟩

/-! ## The scan of `filealloc` -/

theorem fileallocScan_some (fs : List File) :
    ∀ (k i : Nat), fileallocScan fs k = some i →
      k ≤ i ∧ (∃ f, fs[i - k]? = some f ∧ f.ref = 0)
        ∧ ∀ j f, j < i - k → fs[j]? = some f → f.ref ≠ 0 := by
  induction fs with
  | nil => intro k i h; simp [fileallocScan] at h
  | cons g gs ih =>
    intro k i h
    rw [fileallocScan] at h
    by_cases hg : g.ref = 0
    · rw [if_pos hg] at h
      have : k = i := by simpa using h
      subst this
      exact ⟨le_refl _, ⟨g, by simp, hg⟩, by intro j f hj; omega⟩
    · rw [if_neg hg] at h
      obtain ⟨h1, ⟨f, h2, h3⟩, h4⟩ := ih (k + 1) i h
      have e : i - k = (i - (k + 1)) + 1 := by omega
      refine ⟨by omega, ⟨f, by rw [e]; simpa using h2, h3⟩, ?_⟩
      intro j f1 hj hf1
      cases j with
      | zero => simp at hf1; rw [← hf1]; exact hg
      | succ j => exact h4 j f1 (by omega) (by simpa using hf1)

theorem fileallocScan_none (fs : List File) :
    ∀ (k : Nat), fileallocScan fs k = none ↔ ∀ f ∈ fs, f.ref ≠ 0 := by
  induction fs with
  | nil => intro k; simp [fileallocScan]
  | cons g gs ih =>
    intro k
    rw [fileallocScan]
    by_cases hg : g.ref = 0
    · simp [hg]
    · simp [hg, ih (k + 1)]

/-- The first free slot is the one the scan returns. -/
theorem fileallocScan_first (fs : List File) :
    ∀ (k h : Nat) (f : File), fs[h]? = some f → f.ref = 0 →
      (∀ j g, j < h → fs[j]? = some g → g.ref ≠ 0) → fileallocScan fs k = some (k + h) := by
  induction fs with
  | nil => intro k h f hf; simp at hf
  | cons g gs ih =>
    intro k h f hf hz hbefore
    rw [fileallocScan]
    cases h with
    | zero =>
      simp at hf
      rw [hf, if_pos hz]; rfl
    | succ h =>
      have hg : g.ref ≠ 0 := hbefore 0 g (by omega) (by simp)
      rw [if_neg hg, ih (k + 1) h f (by simpa using hf) hz
        (fun j g1 hj hg1 => hbefore (j + 1) g1 (by omega) (by simpa using hg1))]
      congr 1; omega

theorem modify_eq_set_of_getElem? {α : Type} (g : α → α) (l : List α) (n : Nat) (a : α)
    (h : l[n]? = some a) : l.modify g n = l.set n (g a) := by
  induction l generalizing n with
  | nil => simp at h
  | cons x xs ih =>
    cases n with
    | zero => simp at h; simp [h]
    | succ n => simp at h; simp [ih n h]

/-- What a successful `filealloc` does: the slot returned is the first one
with `ref == 0`, and only its `ref` is written. -/
theorem filealloc_some (s s1 : KState) (h : Nat) (hok : filealloc s = (some h, s1)) :
    ∃ f, s.ftable[h]? = some f ∧ f.ref = 0
      ∧ (∀ j g, j < h → s.ftable[j]? = some g → g.ref ≠ 0)
      ∧ s1 = { ftable := s.ftable.set h { f with ref := 1 },
               trace := s.trace ++ [Event.acquire, Event.release] } := by
  unfold filealloc at hok
  cases hscan : fileallocScan s.ftable 0 with
  | none => rw [hscan] at hok; simp at hok
  | some i =>
    rw [hscan] at hok
    simp only [Prod.mk.injEq, Option.some.injEq] at hok
    obtain ⟨rfl, rfl⟩ := hok
    obtain ⟨_, ⟨f, hf, hz⟩, hbefore⟩ := fileallocScan_some s.ftable 0 i hscan
    simp only [Nat.sub_zero] at hf hbefore
    exact ⟨f, hf, hz, hbefore, by rw [modify_eq_set_of_getElem? _ _ _ f hf]⟩

/-- When `filealloc` fails: no slot has `ref == 0`, and only the lock was
touched. -/
theorem filealloc_none (s : KState) :
    ((filealloc s).1 = none ↔ ∀ f ∈ s.ftable, f.ref ≠ 0)
    ∧ ((filealloc s).1 = none →
        filealloc s = (none, { s with trace := s.trace ++ [Event.acquire, Event.release] })) := by
  unfold filealloc
  cases hscan : fileallocScan s.ftable 0 with
  | none => simpa using (fileallocScan_none s.ftable 0).1 hscan
  | some i =>
    have : ¬ ∀ f ∈ s.ftable, f.ref ≠ 0 := by
      rw [← fileallocScan_none s.ftable 0, hscan]; simp
    simpa using this

/-! ## Duplicate -/

theorem filedup_eq (s : KState) (h : Nat) (f : File) (hf : s.ftable[h]? = some f) :
    filedup s h =
      if f.ref < 1 then Outcome.panic "filedup"
      else if f.ref = INT_MAX then Outcome.undef
      else Outcome.ret (h,
        { ftable := s.ftable.set h { f with ref := f.ref + 1 },
          trace := s.trace ++ [Event.acquire, Event.release] }) := by
  unfold filedup
  rw [hf]

theorem getElem?_lt_length {α : Type} {l : List α} {h : Nat} {a : α} (hf : l[h]? = some a) :
    h < l.length := by
  rcases Nat.lt_or_ge h l.length with hl | hl
  · exact hl
  · rw [List.getElem?_eq_none hl] at hf; simp at hf

/-- C10. Duplicate: for a handle on a slot of the table, `filedup` panics if and
only if the slot has `ref < 1`; otherwise (and short of incrementing `INT_MAX`,
which C leaves undefined) it returns the same handle, having taken and
released the table lock once, with `ref` one larger, every other field of the
slot as before and every other slot unchanged. -/
theorem filedup_spec (s : KState) (h : Nat) (f : File) (hf : s.ftable[h]? = some f) :
    ((∃ msg, filedup s h = Outcome.panic msg) ↔ f.ref < 1)
    ∧ (1 ≤ f.ref → f.ref < INT_MAX →
        ∃ s1, filedup s h = Outcome.ret (h, s1)
          ∧ s1.ftable[h]? = some { f with ref := f.ref + 1 }
          ∧ (∀ j, j ≠ h → s1.ftable[j]? = s.ftable[j]?)
          ∧ s1.ftable.length = s.ftable.length
          ∧ s1.trace = s.trace ++ [Event.acquire, Event.release]) := by
  have hlt : h < s.ftable.length := getElem?_lt_length hf
  rw [filedup_eq s h f hf]
  constructor
  · by_cases h1 : f.ref < 1
    · simp [h1]
    · by_cases h2 : f.ref = INT_MAX
      · rw [if_neg h1, if_pos h2]; simp [h1]
      · rw [if_neg h1, if_neg h2]; simp [h1]
  · intro h1 h2
    refine ⟨{ ftable := s.ftable.set h { f with ref := f.ref + 1 },
              trace := s.trace ++ [Event.acquire, Event.release] }, ?_, ?_, ?_, ?_, rfl⟩
    · rw [if_neg (by omega), if_neg (by omega)]
    · simp [hlt]
    · intro j hj; simp [List.getElem?_set_ne (Ne.symm hj)]
    · simp

/-- Witness for `filedup_spec`, on the inode slot of `sampleState`. -/
theorem filedup_spec_witness :
    ((∃ msg, filedup sampleState 1 = Outcome.panic msg) ↔ inodeFile.ref < 1)
    ∧ ∃ s1, filedup sampleState 1 = Outcome.ret (1, s1)
        ∧ s1.ftable[1]? = some { inodeFile with ref := inodeFile.ref + 1 }
        ∧ (∀ j, j ≠ 1 → s1.ftable[j]? = sampleState.ftable[j]?)
        ∧ s1.ftable.length = sampleState.ftable.length
        ∧ s1.trace = sampleState.trace ++ [Event.acquire, Event.release] :=
  ⟨(filedup_spec sampleState 1 inodeFile rfl).1,
    (filedup_spec sampleState 1 inodeFile rfl).2 (by decide) (by decide)⟩

/-! ## Sequences of calls on the table -/

theorem fileclose_eq (s : KState) (h : Nat) (f : File) (hf : s.ftable[h]? = some f) :
    fileclose s h =
      if f.ref < 1 then Outcome.panic "fileclose"
      else if f.ref - 1 > 0 then
        Outcome.ret
          { ftable := s.ftable.set h { f with ref := f.ref - 1 },
            trace := s.trace ++ [Event.acquire, Event.release] }
      else
        Outcome.ret
          { ftable := s.ftable.set h { f with ref := 0, type := FD_NONE },
            trace := s.trace ++ [Event.acquire, Event.release] ++ closeTeardown f } := by
  unfold fileclose
  rw [hf]
  rfl

theorem runOps_cons_ret (op : Op) (ops : List Op) (s s2 : KState)
    (h : runOps (op :: ops) s = Outcome.ret s2) :
    ∃ s1, stepOp s op = Outcome.ret s1 ∧ runOps ops s1 = Outcome.ret s2 := by
  rw [runOps] at h
  cases hstep : stepOp s op with
  | ret s1 => rw [hstep] at h; exact ⟨s1, rfl, h⟩
  | panic msg => rw [hstep] at h; simp at h
  | undef => rw [hstep] at h; simp at h
  | nofuel => rw [hstep] at h; simp at h

/-- What one returning call does to the table: nothing, or it rewrites one
slot in one of four ways. -/
theorem stepOp_ret (s s1 : KState) (op : Op) (hstep : stepOp s op = Outcome.ret s1) :
    s1.ftable = s.ftable ∨
    ∃ h f g, s.ftable[h]? = some f ∧ s1.ftable = s.ftable.set h g ∧
      ((op = Op.alloc ∧ f.ref = 0 ∧ g = { f with ref := 1 })
        ∨ (op = Op.dup h ∧ 1 ≤ f.ref ∧ g = { f with ref := f.ref + 1 })
        ∨ (op = Op.close h ∧ 1 < f.ref ∧ g = { f with ref := f.ref - 1 })
        ∨ (op = Op.close h ∧ f.ref = 1 ∧ g = { f with ref := 0, type := FD_NONE })) := by
  cases op with
  | alloc =>
    simp only [stepOp, Outcome.ret.injEq] at hstep
    cases hres : (filealloc s).1 with
    | none =>
      left
      rw [← hstep, (filealloc_none s).2 hres]
    | some h =>
      right
      obtain ⟨f, hf, hz, _, hs1⟩ := filealloc_some s (filealloc s).2 h (by rw [← hres])
      rw [hstep] at hs1
      exact ⟨h, f, _, hf, by rw [hs1], Or.inl ⟨rfl, hz, rfl⟩⟩
  | dup h =>
    right
    simp only [stepOp] at hstep
    cases hf : s.ftable[h]? with
    | none => simp [filedup, hf] at hstep
    | some f =>
      rw [filedup_eq s h f hf] at hstep
      by_cases h1 : f.ref < 1
      · simp [h1] at hstep
      · by_cases h2 : f.ref = INT_MAX
        · rw [if_neg h1, if_pos h2] at hstep; simp at hstep
        · rw [if_neg h1, if_neg h2] at hstep
          simp only [Outcome.ret.injEq] at hstep
          exact ⟨h, f, _, hf, by rw [← hstep], Or.inr (Or.inl ⟨rfl, by omega, rfl⟩)⟩
  | close h =>
    right
    simp only [stepOp] at hstep
    cases hf : s.ftable[h]? with
    | none => simp [fileclose, hf] at hstep
    | some f =>
      rw [fileclose_eq s h f hf] at hstep
      by_cases h1 : f.ref < 1
      · simp [h1] at hstep
      · by_cases h2 : f.ref - 1 > 0
        · rw [if_neg h1, if_pos h2] at hstep
          simp only [Outcome.ret.injEq] at hstep
          exact ⟨h, f, _, hf, by rw [← hstep],
            Or.inr (Or.inr (Or.inl ⟨rfl, by omega, rfl⟩))⟩
        · rw [if_neg h1, if_neg h2] at hstep
          simp only [Outcome.ret.injEq] at hstep
          exact ⟨h, f, _, hf, by rw [← hstep],
            Or.inr (Or.inr (Or.inr ⟨rfl, by omega, rfl⟩))⟩

/-- A property of slots that every rewrite of `stepOp_ret` establishes holds
in every state reached from a state where it holds. -/
theorem runOps_preserves (P : File → Prop)
    (hset : ∀ f, P f → (f.ref = 0 → P { f with ref := 1 })
      ∧ (1 ≤ f.ref → P { f with ref := f.ref + 1 })
      ∧ (1 < f.ref → P { f with ref := f.ref - 1 })
      ∧ (f.ref = 1 → P { f with ref := 0, type := FD_NONE })) :
    ∀ (ops : List Op) (s s2 : KState), (∀ f ∈ s.ftable, P f) →
      runOps ops s = Outcome.ret s2 → ∀ f ∈ s2.ftable, P f := by
  intro ops
  induction ops with
  | nil =>
    intro s s2 hP hrun
    simp only [runOps, Outcome.ret.injEq] at hrun
    rw [← hrun]; exact hP
  | cons op ops ih =>
    intro s s2 hP hrun
    obtain ⟨s1, hstep, hrest⟩ := runOps_cons_ret op ops s s2 hrun
    refine ih s1 s2 ?_ hrest
    rcases stepOp_ret s s1 op hstep with hsame | ⟨h, f, g, hf, hs1, hcase⟩
    · rw [hsame]; exact hP
    · have hPf : P f := hP f (List.getElem?_mem hf)
      have hPg : P g := by
        rcases hcase with ⟨_, h1, rfl⟩ | ⟨_, h1, rfl⟩ | ⟨_, h1, rfl⟩ | ⟨_, h1, rfl⟩
        · exact (hset f hPf).1 h1
        · exact (hset f hPf).2.1 h1
        · exact (hset f hPf).2.2.1 h1
        · exact (hset f hPf).2.2.2 h1
      intro x hx
      rw [hs1] at hx
      rcases List.mem_or_eq_of_mem_set hx with hx | hx
      · exact hP x hx
      · rw [hx]; exact hPg

/-- A slot that is held stays held as long as it is not closed. -/
theorem runOps_held (h : Nat) :
    ∀ (ops : List Op) (s s2 : KState) (f : File), s.ftable[h]? = some f → 1 ≤ f.ref →
      Op.close h ∉ ops → runOps ops s = Outcome.ret s2 →
      ∃ f2, s2.ftable[h]? = some f2 ∧ 1 ≤ f2.ref := by
  intro ops
  induction ops with
  | nil =>
    intro s s2 f hf hr _ hrun
    simp only [runOps, Outcome.ret.injEq] at hrun
    rw [← hrun]; exact ⟨f, hf, hr⟩
  | cons op ops ih =>
    intro s s2 f hf hr hno hrun
    obtain ⟨s1, hstep, hrest⟩ := runOps_cons_ret op ops s s2 hrun
    have hno1 : op ≠ Op.close h := fun e => hno (by rw [e]; exact List.mem_cons_self _ _)
    have hno2 : Op.close h ∉ ops := fun e => hno (List.mem_cons_of_mem _ e)
    have hlt : h < s.ftable.length := getElem?_lt_length hf
    rcases stepOp_ret s s1 op hstep with hsame | ⟨k, f0, g, hf0, hs1, hcase⟩
    · exact ih s1 s2 f (by rw [hsame]; exact hf) hr hno2 hrest
    · by_cases hk : k = h
      · subst hk
        have e : f0 = f := by rw [hf] at hf0; exact (Option.some.inj hf0).symm
        subst e
        have hg : 1 ≤ g.ref := by
          rcases hcase with ⟨_, h1, rfl⟩ | ⟨_, h1, rfl⟩ | ⟨e, _, _⟩ | ⟨e, _, _⟩
          · simp
          · simp; omega
          · exact absurd e hno1
          · exact absurd e hno1
        exact ih s1 s2 g (by rw [hs1]; simp [hlt]) hg hno2 hrest
      · exact ih s1 s2 f (by rw [hs1, List.getElem?_set_ne hk]; exact hf) hr hno2 hrest

/-- Slots with `ref == 0` keep kind `FD_NONE` along every run of calls. -/
theorem runOps_free_slots (ops : List Op) (s0 s : KState)
    (hinit : ∀ f ∈ s0.ftable, f.ref = 0 → f.type = FD_NONE)
    (hrun : runOps ops s0 = Outcome.ret s) :
    ∀ f ∈ s.ftable, f.ref = 0 → f.type = FD_NONE := by
  refine runOps_preserves (fun f => f.ref = 0 → f.type = FD_NONE) ?_ ops s0 s hinit hrun
  intro f hf
  refine ⟨fun _ h0 => ?_, fun h1 h0 => ?_, fun h1 h0 => ?_, fun _ _ => rfl⟩
  · simp at h0
  · have : f.ref + 1 = 0 := h0
    omega
  · have : f.ref - 1 = 0 := h0
    omega

theorem initState_free_slots (N : Nat) :
    ∀ f ∈ (initState N).ftable, f.ref = 0 → f.type = FD_NONE := by
  intro f hf _
  rw [(List.mem_replicate.1 hf).2]; rfl

/-! ## Refcount safety -/

/-- C5. Refcount safety: in every table state reached from the zeroed table by
a sequence of `filealloc` / `filedup` / `fileclose` calls that all return, every
slot has `ref ≥ 0`; and whenever `filealloc` returns a slot there, that slot
has `ref == 0` at the moment of the call, and the same slot is returned by a
later `filealloc` only after a `fileclose` on it. -/
theorem refcount_safety (N : Nat) (ops : List Op) (s : KState)
    (hrun : runOps ops (initState N) = Outcome.ret s) :
    (∀ f ∈ s.ftable, 0 ≤ f.ref)
    ∧ ∀ h s1, filealloc s = (some h, s1) →
        (∃ f, s.ftable[h]? = some f ∧ f.ref = 0)
        ∧ ∀ ops2 s2, runOps ops2 s1 = Outcome.ret s2 → (filealloc s2).1 = some h →
            Op.close h ∈ ops2 := by
  constructor
  · refine runOps_preserves (fun f => 0 ≤ f.ref) ?_ ops (initState N) s ?_ hrun
    · intro f hf
      refine ⟨fun _ => by simp, fun h1 => ?_, fun h1 => ?_, fun _ => by simp⟩
      · show 0 ≤ f.ref + 1; omega
      · show 0 ≤ f.ref - 1; omega
    · intro f hf
      rw [(List.mem_replicate.1 hf).2]; decide
  · intro h s1 halloc
    obtain ⟨f, hf, hz, _, hs1⟩ := filealloc_some s s1 h halloc
    refine ⟨⟨f, hf, hz⟩, ?_⟩
    intro ops2 s2 hrun2 hagain
    by_contra hno
    have hlt : h < s.ftable.length := getElem?_lt_length hf
    obtain ⟨f2, hf2, hr2⟩ := runOps_held h ops2 s1 s2 { f with ref := 1 }
      (by rw [hs1]; simp [hlt]) (by simp) hno hrun2
    obtain ⟨f3, hf3, hz3, _⟩ := filealloc_some s2 (filealloc s2).2 h (by rw [← hagain])
    rw [hf2] at hf3
    rw [← Option.some.inj hf3] at hz3
    omega

/-- Witness for `refcount_safety`: allocate, duplicate, close on a table of
two slots. -/
theorem refcount_safety_witness :
    (∀ f ∈ [{ zeroFile with ref := 1 }, zeroFile], 0 ≤ f.ref)
    ∧ ∀ h s1,
        filealloc { ftable := [{ zeroFile with ref := 1 }, zeroFile],
                    trace := [Event.acquire, Event.release, Event.acquire, Event.release,
                      Event.acquire, Event.release] } = (some h, s1) →
        (∃ f, [{ zeroFile with ref := 1 }, zeroFile][h]? = some f ∧ f.ref = 0)
        ∧ ∀ ops2 s2, runOps ops2 s1 = Outcome.ret s2 → (filealloc s2).1 = some h →
            Op.close h ∈ ops2 :=
  refcount_safety 2 [Op.alloc, Op.dup 0, Op.close 0]
    { ftable := [{ zeroFile with ref := 1 }, zeroFile],
      trace := [Event.acquire, Event.release, Event.acquire, Event.release,
        Event.acquire, Event.release] } rfl

/-! ## Free slots -/

/-- C8, counterexample. One `filealloc` on the zeroed table of one slot leaves
that slot with `ref == 1` and kind `FD_NONE`: its kind is None although its
refcount is not 0. -/
theorem free_slot_iff_counterexample :
    runOps [Op.alloc] (initState 1) =
      Outcome.ret { ftable := [{ zeroFile with ref := 1 }],
                    trace := [Event.acquire, Event.release] }
    ∧ ¬ (({ zeroFile with ref := 1 } : File).ref = 0
          ↔ ({ zeroFile with ref := 1 } : File).type = FD_NONE) := by
  decide

/-- C8, amended. In every table state reached by a sequence of `filealloc` /
`filedup` / `fileclose` calls that all return, from a table in which every
slot with `ref == 0` has kind `FD_NONE`, every slot with `ref == 0` has kind
`FD_NONE`; the zeroed table is such a starting table. (A held slot may have any
kind: it is the last `fileclose` that sets the kind back to `FD_NONE`.) -/
theorem free_slot_kind (s0 : KState) (ops : List Op) (s : KState)
    (hinit : ∀ f ∈ s0.ftable, f.ref = 0 → f.type = FD_NONE)
    (hrun : runOps ops s0 = Outcome.ret s) :
    (∀ f ∈ s.ftable, f.ref = 0 → f.type = FD_NONE)
    ∧ ∀ N, ∀ f ∈ (initState N).ftable, f.ref = 0 → f.type = FD_NONE :=
  ⟨runOps_free_slots ops s0 s hinit hrun, fun N => initState_free_slots N⟩

/-- Witness for `free_slot_kind`: the inode slot of `sampleState`, of kind
`FD_INODE` and held once, is closed; it ends with `ref == 0` and kind
`FD_NONE`. -/
theorem free_slot_kind_witness :
    inodeFile.type = FD_INODE ∧ inodeFile.ref = 1
    ∧ runOps [Op.close 1] sampleState = Outcome.ret closedState
    ∧ closedState.ftable[1]? = some { inodeFile with ref := 0, type := FD_NONE }
    ∧ ({ inodeFile with ref := 0, type := FD_NONE } : File).type = FD_NONE :=
  ⟨rfl, rfl, rfl, rfl,
    (free_slot_kind sampleState [Op.close 1] closedState (by decide) rfl).1
      { inodeFile with ref := 0, type := FD_NONE }
      (List.mem_cons_of_mem _ (List.mem_cons_self _ _)) rfl⟩

/-! ## Allocate -/

/-- C9. Allocate postcondition: in every table state reached by `filealloc` /
`filedup` / `fileclose` calls from a table whose slots with `ref == 0` have
kind `FD_NONE` (the zeroed table is one, and so is every table reached from
it), whenever `filealloc` succeeds, the slot it returns had `ref == 0` before
the call and afterwards has `ref == 1` and kind `FD_NONE` (`filealloc` writes
`ref` only; the kind is the one `fileclose` left), and every other slot of the
table is unchanged. -/
theorem filealloc_post (s0 : KState) (ops : List Op) (s s1 : KState) (h : Nat)
    (hinit : ∀ f ∈ s0.ftable, f.ref = 0 → f.type = FD_NONE)
    (hrun : runOps ops s0 = Outcome.ret s)
    (hok : filealloc s = (some h, s1)) :
    ∃ f f1, s.ftable[h]? = some f ∧ f.ref = 0
      ∧ s1.ftable[h]? = some f1 ∧ f1.ref = 1 ∧ f1.type = FD_NONE
      ∧ f1 = { f with ref := 1 }
      ∧ (∀ j, j ≠ h → s1.ftable[j]? = s.ftable[j]?)
      ∧ s1.ftable.length = s.ftable.length := by
  obtain ⟨f, hf, hz, _, rfl⟩ := filealloc_some s s1 h hok
  have hlt : h < s.ftable.length := getElem?_lt_length hf
  have hnone : f.type = FD_NONE :=
    runOps_free_slots ops s0 s hinit hrun f (List.getElem?_mem hf) hz
  refine ⟨f, { f with ref := 1 }, hf, hz, by simp [hlt], rfl, hnone, rfl, ?_, by simp⟩
  intro j hj
  simp [List.getElem?_set_ne (Ne.symm hj)]

/-- Witness for `filealloc_post`: in `sampleState` the inode slot is closed,
which clears its kind; the next `filealloc` returns that slot with `ref == 1`
and kind `FD_NONE`. -/
theorem filealloc_post_witness :
    inodeFile.type = FD_INODE
    ∧ runOps [Op.close 1] sampleState = Outcome.ret closedState
    ∧ ∃ f f1, closedState.ftable[1]? = some f ∧ f.ref = 0
      ∧ (filealloc closedState).2.ftable[1]? = some f1 ∧ f1.ref = 1 ∧ f1.type = FD_NONE
      ∧ f1 = { f with ref := 1 }
      ∧ (∀ j, j ≠ 1 → (filealloc closedState).2.ftable[j]? = closedState.ftable[j]?)
      ∧ (filealloc closedState).2.ftable.length = closedState.ftable.length :=
  ⟨rfl, rfl,
    filealloc_post sampleState [Op.close 1] closedState (filealloc closedState).2 1
      (by decide) rfl rfl⟩

/-! ## Balanced duplicate and close -/

theorem lockPairs_succ_end (k : Nat) :
    lockPairs k ++ [Event.acquire, Event.release] = lockPairs (k + 1) := by
  induction k with
  | zero => rfl
  | succ k ih => rw [lockPairs, List.append_assoc, ih]; rfl

theorem lockPairs_add (a b : Nat) : lockPairs a ++ lockPairs b = lockPairs (a + b) := by
  induction b with
  | zero => simp [lockPairs]
  | succ b ih =>
    rw [← lockPairs_succ_end b, ← List.append_assoc, ih, lockPairs_succ_end]; rfl

theorem set_eq_self_of_getElem? {α : Type} (l : List α) (n : Nat) (a : α)
    (h : l[n]? = some a) : l.set n a = l := by
  induction l generalizing n with
  | nil => rfl
  | cons x xs ih =>
    cases n with
    | zero => simp at h; simp [h]
    | succ n => simp at h; simp [ih n h]

theorem runOps_cons_of_ret (op : Op) (ops : List Op) (s s1 : KState)
    (h : stepOp s op = Outcome.ret s1) : runOps (op :: ops) s = runOps ops s1 := by
  rw [runOps, h]

/-- The effect of `d` duplicates of a held slot. -/
theorem runOps_dups (h : Nat) (rest : List Op) :
    ∀ (d : Nat) (s : KState) (f : File), s.ftable[h]? = some f → 1 ≤ f.ref →
      f.ref + d ≤ INT_MAX →
      runOps (List.replicate d (Op.dup h) ++ rest) s =
        runOps rest { ftable := s.ftable.set h { f with ref := f.ref + d },
                      trace := s.trace ++ lockPairs d } := by
  intro d
  induction d with
  | zero =>
    intro s f hf _ _
    simp [lockPairs, set_eq_self_of_getElem? s.ftable h f hf]
  | succ d ih =>
    intro s f hf h1 h2
    have hlt : h < s.ftable.length := getElem?_lt_length hf
    have hstep : stepOp s (Op.dup h) = Outcome.ret
        { ftable := s.ftable.set h { f with ref := f.ref + 1 },
          trace := s.trace ++ [Event.acquire, Event.release] } := by
      simp only [stepOp]
      rw [filedup_eq s h f hf, if_neg (by omega), if_neg (by push_cast at h2; omega)]
    rw [List.replicate_succ, List.cons_append, runOps_cons_of_ret _ _ _ _ hstep,
      ih _ { f with ref := f.ref + 1 } (by simp [hlt]) (by simp; omega)
        (by push_cast at h2; simp; omega)]
    congr 2
    · simp only [List.set_set]
      congr 2
      push_cast
      ring
    · simp [lockPairs, List.append_assoc]

/-- The effect of `d` closes of a slot that is held more than `d` times. -/
theorem runOps_closes (h : Nat) (rest : List Op) :
    ∀ (d : Nat) (s : KState) (f : File), s.ftable[h]? = some f → (d : Int) < f.ref →
      runOps (List.replicate d (Op.close h) ++ rest) s =
        runOps rest { ftable := s.ftable.set h { f with ref := f.ref - d },
                      trace := s.trace ++ lockPairs d } := by
  intro d
  induction d with
  | zero =>
    intro s f hf _
    simp [lockPairs, set_eq_self_of_getElem? s.ftable h f hf]
  | succ d ih =>
    intro s f hf h1
    have hlt : h < s.ftable.length := getElem?_lt_length hf
    have hstep : stepOp s (Op.close h) = Outcome.ret
        { ftable := s.ftable.set h { f with ref := f.ref - 1 },
          trace := s.trace ++ [Event.acquire, Event.release] } := by
      simp only [stepOp]
      rw [fileclose_eq s h f hf, if_neg (by push_cast at h1; omega),
        if_pos (by push_cast at h1; omega)]
    rw [List.replicate_succ, List.cons_append, runOps_cons_of_ret _ _ _ _ hstep,
      ih _ { f with ref := f.ref - 1 } (by simp [hlt]) (by push_cast at h1; simp; omega)]
    congr 2
    · simp only [List.set_set]
      congr 2
      push_cast
      ring
    · simp [lockPairs, List.append_assoc]

theorem lockPairs_mem (k : Nat) :
    ∀ e ∈ lockPairs k, e = Event.acquire ∨ e = Event.release := by
  induction k with
  | zero => intro e he; simp [lockPairs] at he
  | succ k ih =>
    intro e he
    simp only [lockPairs, List.mem_append, List.mem_cons, List.mem_singleton] at he
    rcases he with (he | he | he) | he
    · exact Or.inl he
    · exact Or.inr he
    · simp at he
    · exact ih e he

/-- State after `d` duplicates and `d` closes of a slot held once. -/
theorem runOps_dups_closes (s : KState) (h : Nat) (f : File) (d : Nat) (rest : List Op)
    (hf : s.ftable[h]? = some f) (href : f.ref = 1) (hd : (d : Int) + 1 ≤ INT_MAX) :
    runOps (List.replicate d (Op.dup h) ++ (List.replicate d (Op.close h) ++ rest)) s =
      runOps rest { ftable := s.ftable, trace := s.trace ++ lockPairs (2 * d) } := by
  have hlt : h < s.ftable.length := getElem?_lt_length hf
  rw [runOps_dups h _ d s f hf (by omega) (by omega),
    runOps_closes h rest d _ { f with ref := f.ref + d } (by simp [hlt]) (by simp; omega)]
  congr 2
  · simp only [List.set_set]
    have e : ({ f with ref := f.ref + d - d } : File) = f := by
      cases f; simp
    rw [e, set_eq_self_of_getElem? s.ftable h f hf]
  · simp only [List.append_assoc, lockPairs_add]
    congr 2; omega

/-- C6. Balanced duplicate and close: for a handle on a slot held once (as
`filealloc` leaves it), `d` calls of `filedup` followed by `d + 1` calls of
`fileclose` all return (there is no panic; `d + 1` must not exceed `INT_MAX`).
After the first `d` closes the table is as at the start and only the table
lock has been used; the last close leaves the slot with `ref == 0` and kind
`FD_NONE` and adds the teardown, once: one `pipeclose(pipe, writable)` for a
pipe, the sequence `begin_op`, `iput(ip)`, `end_op` for an inode, nothing for
another kind. -/
theorem balanced_dup_close (s : KState) (h : Nat) (f : File) (d : Nat)
    (hf : s.ftable[h]? = some f) (href : f.ref = 1) (hd : (d : Int) + 1 ≤ INT_MAX) :
    runOps (List.replicate d (Op.dup h) ++ List.replicate d (Op.close h)) s =
      Outcome.ret { ftable := s.ftable, trace := s.trace ++ lockPairs (2 * d) }
    ∧ runOps (List.replicate d (Op.dup h) ++ List.replicate (d + 1) (Op.close h)) s =
      Outcome.ret
        { ftable := s.ftable.set h { f with ref := 0, type := FD_NONE },
          trace := s.trace ++ lockPairs (2 * d + 1) ++ closeTeardown f }
    ∧ (∀ e ∈ lockPairs (2 * d + 1), e = Event.acquire ∨ e = Event.release)
    ∧ (f.type = FD_PIPE → closeTeardown f = [Event.pipeclose f.pipe f.writable])
    ∧ (f.type = FD_INODE →
        closeTeardown f = [Event.begin_op, Event.iput f.ip, Event.end_op])
    ∧ (f.type ≠ FD_PIPE → f.type ≠ FD_INODE → closeTeardown f = []) := by
  refine ⟨?_, ?_, lockPairs_mem _, ?_, ?_, ?_⟩
  · have := runOps_dups_closes s h f d [] hf href hd
    simpa [runOps] using this
  · have e : List.replicate (d + 1) (Op.close h)
        = List.replicate d (Op.close h) ++ [Op.close h] := by
      rw [List.replicate_succ']
    rw [e, runOps_dups_closes s h f d [Op.close h] hf href hd]
    have hstep : stepOp { ftable := s.ftable, trace := s.trace ++ lockPairs (2 * d) }
        (Op.close h) = Outcome.ret
          { ftable := s.ftable.set h { f with ref := 0, type := FD_NONE },
            trace := s.trace ++ lockPairs (2 * d) ++ [Event.acquire, Event.release]
              ++ closeTeardown f } := by
      simp only [stepOp]
      rw [fileclose_eq { ftable := s.ftable, trace := s.trace ++ lockPairs (2 * d) } h f hf,
        if_neg (by omega), if_neg (by omega)]
    rw [runOps_cons_of_ret _ _ _ _ hstep, runOps]
    rw [List.append_assoc s.trace, lockPairs_succ_end]
  · intro ht; simp [closeTeardown, ht]
  · intro ht; simp [closeTeardown, ht]
  · intro h1 h2; simp [closeTeardown, h1, h2]

/-- Witness for `balanced_dup_close`: the inode slot of `sampleState`,
duplicated twice and closed three times. -/
theorem balanced_dup_close_witness :
    runOps (List.replicate 2 (Op.dup 1) ++ List.replicate 2 (Op.close 1)) sampleState =
      Outcome.ret { ftable := sampleState.ftable, trace := sampleState.trace ++ lockPairs (2 * 2) }
    ∧ runOps (List.replicate 2 (Op.dup 1) ++ List.replicate (2 + 1) (Op.close 1)) sampleState =
      Outcome.ret
        { ftable := sampleState.ftable.set 1 { inodeFile with ref := 0, type := FD_NONE },
          trace := sampleState.trace ++ lockPairs (2 * 2 + 1) ++ closeTeardown inodeFile }
    ∧ (∀ e ∈ lockPairs (2 * 2 + 1), e = Event.acquire ∨ e = Event.release)
    ∧ (inodeFile.type = FD_PIPE →
        closeTeardown inodeFile = [Event.pipeclose inodeFile.pipe inodeFile.writable])
    ∧ (inodeFile.type = FD_INODE →
        closeTeardown inodeFile = [Event.begin_op, Event.iput inodeFile.ip, Event.end_op])
    ∧ (inodeFile.type ≠ FD_PIPE → inodeFile.type ≠ FD_INODE → closeTeardown inodeFile = []) :=
  balanced_dup_close sampleState 1 inodeFile 2 rfl rfl (by decide)

/-! ## Exhaustion and reuse -/

theorem getElem?_held_append (a : Nat) (rest : List File) :
    ∀ j g, j < a → (List.replicate a heldFile ++ rest)[j]? = some g → g.ref ≠ 0 := by
  intro j g hj hg
  rw [List.getElem?_append_left (by simpa using hj)] at hg
  have : g ∈ List.replicate a heldFile := List.getElem?_mem hg
  rw [(List.mem_replicate.1 this).2]; decide

theorem filealloc_held_append (a : Nat) (rest : List File) (t : List Event) :
    filealloc { ftable := List.replicate a heldFile ++ zeroFile :: rest, trace := t } =
      (some a, { ftable := List.replicate (a + 1) heldFile ++ rest,
                 trace := t ++ [Event.acquire, Event.release] }) := by
  have hget : (List.replicate a heldFile ++ zeroFile :: rest)[a]? = some zeroFile := by
    rw [List.getElem?_append_right (by simp)]; simp
  have hscan : fileallocScan (List.replicate a heldFile ++ zeroFile :: rest) 0 = some a := by
    have := fileallocScan_first (List.replicate a heldFile ++ zeroFile :: rest) 0 a zeroFile
      hget rfl (getElem?_held_append a _)
    simpa using this
  unfold filealloc
  simp only [hscan]
  rw [modify_eq_set_of_getElem? _ _ _ zeroFile hget]
  congr 2
  rw [List.set_append_right _ _ (by simp)]
  simp [List.replicate_succ', heldFile]

/-- The state after `k` allocations on a table that begins with `a` held
slots followed by at least `k` zeroed ones. -/
theorem allocN_held (b : Nat) :
    ∀ (k a : Nat) (t : List Event),
      allocN k { ftable := List.replicate a heldFile ++ List.replicate (k + b) zeroFile,
                 trace := t } =
        ((List.range' a k).map some,
          { ftable := List.replicate (a + k) heldFile ++ List.replicate b zeroFile,
            trace := t ++ lockPairs k }) := by
  intro k
  induction k with
  | zero => intro a t; simp [allocN, lockPairs]
  | succ k ih =>
    intro a t
    have e : List.replicate (k + 1 + b) zeroFile = zeroFile :: List.replicate (k + b) zeroFile := by
      rw [show k + 1 + b = (k + b) + 1 by omega, List.replicate_succ]
    rw [allocN, e, filealloc_held_append, ih (a + 1)]
    simp [List.range'_succ, lockPairs, Nat.add_assoc, Nat.add_comm 1 k]

theorem allocN_init (N : Nat) :
    allocN N (initState N) =
      ((List.range N).map some,
        { ftable := List.replicate N heldFile, trace := lockPairs N }) := by
  have := allocN_held 0 N 0 []
  simpa [initState, List.range_eq_range'] using this

/-- C7. Exhaustion and reuse: `filealloc` returns 0 exactly when no slot of
the table has `ref == 0`, and then leaves the table unchanged. On a zeroed
table of `N` slots, `N` consecutive `filealloc` calls return the `N` slots
`0, …, N-1` (all distinct), the next `filealloc` returns 0, and after a
`fileclose` of any one of the handles, `h`, the next `filealloc` returns `h`. -/
theorem exhaustion_reuse (s : KState) (N h : Nat) (hh : h < N) :
    ((filealloc s).1 = none ↔ ∀ f ∈ s.ftable, f.ref ≠ 0)
    ∧ ((filealloc s).1 = none → (filealloc s).2.ftable = s.ftable)
    ∧ (allocN N (initState N)).1 = (List.range N).map some
    ∧ (allocN N (initState N)).1.Nodup
    ∧ (filealloc (allocN N (initState N)).2).1 = none
    ∧ ∃ s1, fileclose (filealloc (allocN N (initState N)).2).2 h = Outcome.ret s1
        ∧ (filealloc s1).1 = some h := by
  have hfull : ∀ f ∈ List.replicate N heldFile, f.ref ≠ 0 := by
    intro f hf; rw [(List.mem_replicate.1 hf).2]; decide
  have hnone : (filealloc { ftable := List.replicate N heldFile, trace := lockPairs N }).1
      = none := (filealloc_none _).1.2 hfull
  refine ⟨(filealloc_none s).1, ?_, ?_, ?_, ?_, ?_⟩
  · intro hn; rw [(filealloc_none s).2 hn]
  · rw [allocN_init]
  · rw [allocN_init]
    exact (List.nodup_range N).map (fun a b e => Option.some.inj e)
  · rw [allocN_init]; exact hnone
  · rw [allocN_init]
    simp only []
    rw [(filealloc_none _).2 hnone]
    have hslot : (List.replicate N heldFile)[h]? = some heldFile := by
      simp [List.getElem?_replicate, hh]
    refine ⟨{ ftable := (List.replicate N heldFile).set h zeroFile,
              trace := lockPairs N ++ [Event.acquire, Event.release]
                ++ [Event.acquire, Event.release] }, ?_, ?_⟩
    · rw [fileclose_eq _ h heldFile hslot]
      simp [heldFile, zeroFile, closeTeardown]
    · have hscan := fileallocScan_first ((List.replicate N heldFile).set h zeroFile) 0 h
        zeroFile (by simp [hh]) rfl (by
          intro j g hj hg
          rw [List.getElem?_set_ne (by omega)] at hg
          have : g ∈ List.replicate N heldFile := List.getElem?_mem hg
          rw [(List.mem_replicate.1 this).2]; decide)
      unfold filealloc
      simp only [hscan, Nat.zero_add]

/-- Witness for `exhaustion_reuse`: the table of `N = 64` slots, closing
handle 17 once the table is full. -/
theorem exhaustion_reuse_witness :
    ((filealloc sampleState).1 = none ↔ ∀ f ∈ sampleState.ftable, f.ref ≠ 0)
    ∧ ((filealloc sampleState).1 = none → (filealloc sampleState).2.ftable = sampleState.ftable)
    ∧ (allocN 64 (initState 64)).1 = (List.range 64).map some
    ∧ (allocN 64 (initState 64)).1.Nodup
    ∧ (filealloc (allocN 64 (initState 64)).2).1 = none
    ∧ ∃ s1, fileclose (filealloc (allocN 64 (initState 64)).2).2 17 = Outcome.ret s1
        ∧ (filealloc s1).1 = some 17 :=
  exhaustion_reuse sampleState 64 17 (by decide)

/-! ## Close -/

/-- C11. Close: for a handle on a slot of the table, `fileclose` panics if and
only if the slot has `ref < 1`. With `ref > 1` it returns having only taken
and released the table lock, with `ref` one smaller and every other field of
the slot unchanged. With `ref == 1` it leaves the slot with `ref == 0` and
kind `FD_NONE` (the other fields as before) and, after releasing the lock,
runs the teardown chosen by the kind the slot had: one
`pipeclose(pipe, writable)` for a pipe, the sequence `begin_op`, `iput(ip)`,
`end_op` for an inode, no call for any other kind. No other slot changes. -/
theorem fileclose_spec (s : KState) (h : Nat) (f : File) (hf : s.ftable[h]? = some f) :
    ((∃ msg, fileclose s h = Outcome.panic msg) ↔ f.ref < 1)
    ∧ (1 < f.ref →
        fileclose s h = Outcome.ret
          { ftable := s.ftable.set h { f with ref := f.ref - 1 },
            trace := s.trace ++ [Event.acquire, Event.release] })
    ∧ (f.ref = 1 →
        ∃ td, fileclose s h = Outcome.ret
          { ftable := s.ftable.set h { f with ref := 0, type := FD_NONE },
            trace := s.trace ++ [Event.acquire, Event.release] ++ td }
        ∧ (f.type = FD_PIPE → td = [Event.pipeclose f.pipe f.writable])
        ∧ (f.type = FD_INODE → td = [Event.begin_op, Event.iput f.ip, Event.end_op])
        ∧ (f.type ≠ FD_PIPE → f.type ≠ FD_INODE → td = []))
    ∧ (∀ s1, fileclose s h = Outcome.ret s1 →
        (∀ j, j ≠ h → s1.ftable[j]? = s.ftable[j]?) ∧ s1.ftable.length = s.ftable.length) := by
  rw [fileclose_eq s h f hf]
  refine ⟨?_, ?_, ?_, ?_⟩
  · by_cases h1 : f.ref < 1
    · simp [h1]
    · by_cases h2 : f.ref - 1 > 0
      · rw [if_neg h1, if_pos h2]; simp [h1]
      · rw [if_neg h1, if_neg h2]; simp [h1]
  · intro h1
    rw [if_neg (by omega), if_pos (by omega)]
  · intro h1
    refine ⟨closeTeardown f, ?_, ?_, ?_, ?_⟩
    · rw [if_neg (by omega), if_neg (by omega)]
    · intro ht; simp [closeTeardown, ht]
    · intro ht; simp [closeTeardown, ht]
    · intro ht1 ht2; simp [closeTeardown, ht1, ht2]
  · intro s1 hs1
    by_cases h1 : f.ref < 1
    · rw [if_pos h1] at hs1; simp at hs1
    · by_cases h2 : f.ref - 1 > 0
      · rw [if_neg h1, if_pos h2] at hs1
        simp only [Outcome.ret.injEq] at hs1
        subst hs1
        exact ⟨fun j hj => by simp [List.getElem?_set_ne (Ne.symm hj)], by simp⟩
      · rw [if_neg h1, if_neg h2] at hs1
        simp only [Outcome.ret.injEq] at hs1
        subst hs1
        exact ⟨fun j hj => by simp [List.getElem?_set_ne (Ne.symm hj)], by simp⟩

/-- Witness for `fileclose_spec`, on the three slots of `sampleState`: the pipe
end held twice is only decremented, the inode held once is released inside a
transaction, and the free slot makes `fileclose` panic. -/
theorem fileclose_spec_witness :
    fileclose sampleState 0 = Outcome.ret
      { ftable := sampleState.ftable.set 0
          { type := FD_PIPE, ref := 2 - 1, readable := 0, writable := 1, pipe := 5, ip := 0,
            off := 0 },
        trace := sampleState.trace ++ [Event.acquire, Event.release] }
    ∧ (∃ td, fileclose sampleState 1 = Outcome.ret
          { ftable := sampleState.ftable.set 1 { inodeFile with ref := 0, type := FD_NONE },
            trace := sampleState.trace ++ [Event.acquire, Event.release] ++ td }
        ∧ (inodeFile.type = FD_PIPE → td = [Event.pipeclose inodeFile.pipe inodeFile.writable])
        ∧ (inodeFile.type = FD_INODE →
            td = [Event.begin_op, Event.iput inodeFile.ip, Event.end_op])
        ∧ (inodeFile.type ≠ FD_PIPE → inodeFile.type ≠ FD_INODE → td = []))
    ∧ ∃ msg, fileclose sampleState 2 = Outcome.panic msg :=
  ⟨(fileclose_spec sampleState 0 _ rfl).2.1 (by decide),
    (fileclose_spec sampleState 1 inodeFile rfl).2.2.1 rfl,
    (fileclose_spec sampleState 2 zeroFile rfl).1.2 (by decide)⟩

/-! ## Block-address codec -/

theorem csDecode_eq (field : Nat) : csDecode field = (field / 256, field % 256) := by
  have h : field &&& BIT = field % 2 ^ 8 := Nat.and_pow_two_sub_one_eq_mod field 8
  simp only [csDecode, Nat.shiftRight_eq_div_pow, h]
  norm_num

theorem csEncode_eq (reference_number length : Nat) (hl : length ≤ 255)
    (hr : reference_number < 2 ^ 24) :
    csEncode reference_number length = reference_number * 256 + length := by
  have h : 2 ^ 8 * reference_number + length = 2 ^ 8 * reference_number ||| length :=
    Nat.mul_add_lt_is_or (by omega) reference_number
  have h2 : reference_number <<< 8 = 2 ^ 8 * reference_number := by
    rw [Nat.shiftLeft_eq, Nat.mul_comm]
  rw [csEncode, h2, ← h]
  simp only [UINT_MOD]
  omega

/-- C12. Codec round trip: with `csEncode r l = ((r << 8) | l)` over 32 bits
and the decoding of `cs_printinfo` (`num = field >> 8`,
`length = field & 255`), every `length` in `[0, 255]` and `reference_number`
in `[0, 2^24)` satisfy `decode (encode (reference_number, length)) =
(reference_number, length)`. -/
theorem codec_round_trip (reference_number length : Nat) (hl : length ≤ 255)
    (hr : reference_number < 2 ^ 24) :
    csDecode (csEncode reference_number length) = (reference_number, length) := by
  rw [csEncode_eq reference_number length hl hr, csDecode_eq]
  congr 1 <;> omega

/-- Witness for `codec_round_trip`: reference number 18 with length 3. -/
theorem codec_round_trip_witness :
    (3 : Nat) ≤ 255 ∧ (18 : Nat) < 2 ^ 24 ∧ csDecode (csEncode 18 3) = (18, 3) :=
  ⟨by decide, by decide, codec_round_trip 18 3 (by decide) (by decide)⟩

/-- C13. Bit-exact decode: for every 32-bit field, the pair `(num, length)`
that `cs_printinfo` computes satisfies `length = field mod 256`,
`num = field div 256`, `length ≤ 255`, `num < 2^24` and
`num * 256 + length = field`; the field `0x00001203` decodes to `num = 18`,
`length = 3`. -/
theorem decode_bit_exact (field : Nat) (hfield : field < UINT_MOD) :
    (csDecode field).2 = field % 256
    ∧ (csDecode field).1 = field / 256
    ∧ (csDecode field).2 ≤ 255
    ∧ (csDecode field).1 < 2 ^ 24
    ∧ (csDecode field).1 * 256 + (csDecode field).2 = field
    ∧ csDecode 0x00001203 = (18, 3) := by
  rw [csDecode_eq]
  simp only [UINT_MOD] at hfield
  refine ⟨rfl, rfl, ?_, ?_, ?_, ?_⟩
  · show field % 256 ≤ 255; omega
  · show field / 256 < 2 ^ 24; omega
  · show field / 256 * 256 + field % 256 = field; omega
  · rw [csDecode_eq]

/-- Witness for `decode_bit_exact`, at the field `0x00001203`. -/
theorem decode_bit_exact_witness :
    (0x00001203 : Nat) < UINT_MOD
    ∧ (csDecode 0x00001203).2 = 0x00001203 % 256
    ∧ (csDecode 0x00001203).1 = 0x00001203 / 256
    ∧ (csDecode 0x00001203).2 ≤ 255
    ∧ (csDecode 0x00001203).1 < 2 ^ 24
    ∧ (csDecode 0x00001203).1 * 256 + (csDecode 0x00001203).2 = 0x00001203
    ∧ csDecode 0x00001203 = (18, 3) :=
  ⟨by decide, decode_bit_exact 0x00001203 (by decide)⟩

/-! ## Inode read -/

/-- C15. Inode read: on a readable inode-backed handle, `fileread` takes the
inode lock, calls `readi` once, at the handle's current offset, releases the
lock, and returns the result `r` of `readi` unchanged (0 included). The
offset afterwards is the old offset plus `r` (in `uint` arithmetic) when
`r > 0` and the old offset when `r ≤ 0`; no other field changes. -/
theorem fileread_inode (env : Env) (f : File) (addr n : Int) (tr : List Event)
    (hr : f.readable ≠ 0) (ht : f.type = FD_INODE) :
    ∃ r f1,
      r = env.readi (tr ++ [Event.ilock f.ip]) f.ip addr f.off n
      ∧ fileread env f addr n tr =
          Outcome.ret (r, f1,
            tr ++ [Event.ilock f.ip, Event.readi f.ip addr f.off n r, Event.iunlock f.ip])
      ∧ (0 < r → f1 = { f with off := (f.off + r.toNat) % UINT_MOD })
      ∧ (0 < r → f.off + r.toNat < UINT_MOD → f1.off = f.off + r.toNat)
      ∧ (r ≤ 0 → f1 = f) := by
  refine ⟨env.readi (tr ++ [Event.ilock f.ip]) f.ip addr f.off n,
    if env.readi (tr ++ [Event.ilock f.ip]) f.ip addr f.off n > 0 then
      { f with off := (f.off
          + (env.readi (tr ++ [Event.ilock f.ip]) f.ip addr f.off n).toNat) % UINT_MOD }
    else f, rfl, ?_, ?_, ?_, ?_⟩
  · rw [fileread, if_neg hr, if_neg (by rw [ht]; decide), if_pos ht]
    simp
  · intro h; rw [if_pos h]
  · intro h h2; rw [if_pos h]; exact Nat.mod_eq_of_lt h2
  · intro h; rw [if_neg (by omega)]

/-- Witness for `fileread_inode`: reading 5 bytes from `inodeFile` moves its
offset from 10 to 15. -/
theorem fileread_inode_witness :
    ∃ r f1,
      r = okEnv.readi ([] ++ [Event.ilock inodeFile.ip]) inodeFile.ip 100 inodeFile.off 5
      ∧ fileread okEnv inodeFile 100 5 [] =
          Outcome.ret (r, f1,
            [] ++ [Event.ilock inodeFile.ip, Event.readi inodeFile.ip 100 inodeFile.off 5 r,
              Event.iunlock inodeFile.ip])
      ∧ (0 < r → f1 = { inodeFile with off := (inodeFile.off + r.toNat) % UINT_MOD })
      ∧ (0 < r → inodeFile.off + r.toNat < UINT_MOD → f1.off = inodeFile.off + r.toNat)
      ∧ (r ≤ 0 → f1 = inodeFile) :=
  fileread_inode okEnv inodeFile 100 5 [] (by decide) rfl

/-! ## Short writes -/

/-- A segment whose `writei` returns a non-negative value other than the
length asked makes the loop panic. -/
theorem filewriteLoop_step_panic (env : Env) (max addr n : Int) (fuel : Nat) (i : Int)
    (f : File) (tr : List Event) (hi : i < n)
    (h0 : 0 ≤ env.writei (tr ++ [Event.begin_op, Event.ilock f.ip]) f.ip (addr + i) f.off
      (segLen n i max))
    (hne : env.writei (tr ++ [Event.begin_op, Event.ilock f.ip]) f.ip (addr + i) f.off
      (segLen n i max) ≠ segLen n i max) :
    filewriteLoop env max addr n (fuel + 1) i f tr = Outcome.panic "short filewrite" := by
  unfold segLen at h0 hne
  rw [filewriteLoop]
  simp only [hi, if_true]
  rw [if_neg (by omega), if_neg (by omega), if_pos hne]

/-- The loop after `m` segments that `writei` wrote in full. -/
theorem filewriteLoop_advance (env : Env) (mx : Nat) (addr n : Int) (hmax : 0 < mx)
    (tr0 : List Event) (j0 : Nat)
    (hfull : ∀ hist ip a off n1, tr0 <+: hist →
      (writeLens (hist.drop tr0.length)).length < j0 → env.writei hist ip a off n1 = n1) :
    ∀ (m fuel : Nat) (i : Int) (f : File) (done : List Event),
      (writeLens done).length + m ≤ j0 → (m * mx : Int) < n - i → f.off < UINT_MOD →
      ∃ segs, filewriteLoop env mx addr n (fuel + m) i f (tr0 ++ done) =
          filewriteLoop env mx addr n fuel (i + m * mx)
            { f with off := (f.off + m * mx) % UINT_MOD } (tr0 ++ (done ++ segs))
        ∧ (writeLens (done ++ segs)).length = (writeLens done).length + m := by
  intro m
  induction m with
  | zero =>
    intro fuel i f done _ _ hoff
    refine ⟨[], ?_, by simp⟩
    simp [Nat.mod_eq_of_lt hoff]
  | succ m ih =>
    intro fuel i f done hlen hn hoff
    have hm : 0 ≤ (m : Int) * mx := by positivity
    have hn2 : (m : Int) * mx + mx < n - i := by push_cast at hn; linarith
    have hn1 : (if n - i > mx then (mx : Int) else n - i) = mx := by
      rw [if_pos (by omega)]
    have hcall := hfull (tr0 ++ done ++ [Event.begin_op, Event.ilock f.ip]) f.ip (addr + i)
      f.off (if n - i > mx then mx else n - i)
      ⟨done ++ [Event.begin_op, Event.ilock f.ip], by simp⟩
      (by simp [writeLens_append, writeLens]; omega)
    rw [show fuel + (m + 1) = (fuel + m) + 1 by omega,
      filewriteLoop_step_ok env mx addr n (fuel + m) i f _ (by omega) hcall
        (by rw [hn1]; exact_mod_cast hmax), hn1, List.append_assoc]
    obtain ⟨segs, h1, h2⟩ := ih fuel (i + mx)
      { f with off := (f.off + (mx : Int).toNat) % UINT_MOD }
      (done ++ segmentEvents f.ip (addr + i) f.off mx mx)
      (by simp [writeLens_append, segmentEvents, writeLens]; omega) (by omega)
      (Nat.mod_lt _ (by decide))
    refine ⟨segmentEvents f.ip (addr + i) f.off mx mx ++ segs, ?_, ?_⟩
    · rw [h1]
      simp only [Int.toNat_ofNat, uint_add_add, List.append_assoc]
      have e : mx + m * mx = (m + 1) * mx := by ring
      have e2 : i + (mx : Int) + (m : Int) * mx = i + ((m + 1 : Nat) : Int) * mx := by
        push_cast; ring
      rw [e, e2]
    · rw [← List.append_assoc, h2]
      simp [writeLens_append, segmentEvents, writeLens]; omega

/-- C16, counterexample. With `MAXOPBLOCKS = 10`, a write of 5 bytes whose
`writei` returns 6 stops the loop with the panic "short filewrite", although 6
is neither -2, nor negative, nor in the range `0 ≤ r < 5`. -/
theorem short_write_counterexample :
    longEnv.writei [Event.begin_op, Event.ilock 7] 7 100 10 5 = 6
    ∧ filewrite longEnv 10 5 inodeFile 100 5 [] = Outcome.panic "short filewrite"
    ∧ ¬ ((6 : Int) = -2) ∧ ¬ ((6 : Int) < 0) ∧ ¬ ((0 : Int) ≤ 6 ∧ (6 : Int) < 5) := by
  decide

/-- C16, amended. In `filewrite` on a writable inode-backed handle (with a
positive segment bound), if the `writei` calls of segments `1..j-1` return the
length asked and the call of segment `j` returns a value `r ≥ 0` other than the
(positive) length asked (shorter, or longer), the operation panics with "short
filewrite" instead of returning. A segment ends the loop in three ways only:
`r == -2` (the result is -2), another `r < 0` (the result is -1), and `r ≥ 0`
with `r` not the length asked (the panic); with `r` the length asked the loop
goes on to its next test. -/
theorem short_write_fatal (env : Env) (MAXOPBLOCKS : Int) (f : File) (addr n : Int)
    (tr : List Event) (j fuel : Nat)
    (hw : f.writable ≠ 0) (ht : f.type = FD_INODE) (hoff : f.off < UINT_MOD)
    (hmax : 0 < maxSegment MAXOPBLOCKS) (hj : 1 ≤ j)
    (hn : ((j - 1 : Nat) : Int) * maxSegment MAXOPBLOCKS < n)
    (hfull : ∀ hist ip a off n1, tr <+: hist →
      (writeLens (hist.drop tr.length)).length + 1 < j → env.writei hist ip a off n1 = n1)
    (hbad : ∀ hist ip a off n1, tr <+: hist →
      (writeLens (hist.drop tr.length)).length + 1 = j → 0 < n1 →
      0 ≤ env.writei hist ip a off n1 ∧ env.writei hist ip a off n1 ≠ n1)
    (hfuel : j ≤ fuel) :
    filewrite env MAXOPBLOCKS fuel f addr n tr = Outcome.panic "short filewrite"
    ∧ ∀ (max : Int) (k : Nat) (i : Int) (g : File) (t : List Event), i < n →
        ∀ r, r = env.writei (t ++ [Event.begin_op, Event.ilock g.ip]) g.ip (addr + i) g.off
            (segLen n i max) →
          (r = -2 → ∃ g1 t1, filewriteLoop env max addr n (k + 1) i g t
              = Outcome.ret (-2, g1, t1))
          ∧ (r < 0 → r ≠ -2 → ∃ g1 t1, filewriteLoop env max addr n (k + 1) i g t
              = Outcome.ret (-1, g1, t1))
          ∧ (0 ≤ r → r ≠ segLen n i max →
              filewriteLoop env max addr n (k + 1) i g t = Outcome.panic "short filewrite")
          ∧ (0 ≤ r → r = segLen n i max → ∃ g1 t1, filewriteLoop env max addr n (k + 1) i g t
              = filewriteLoop env max addr n k (i + r) g1 t1) := by
  constructor
  · obtain ⟨mx, hmx⟩ : ∃ mx : Nat, maxSegment MAXOPBLOCKS = mx :=
      ⟨(maxSegment MAXOPBLOCKS).toNat, (Int.toNat_of_nonneg (le_of_lt hmax)).symm⟩
    obtain ⟨m, rfl⟩ : ∃ m, j = m + 1 := ⟨j - 1, by omega⟩
    obtain ⟨k, rfl⟩ : ∃ k, fuel = (k + 1) + m := ⟨fuel - (m + 1), by omega⟩
    rw [hmx] at hn hmax
    simp only [Nat.add_sub_cancel] at hn
    rw [filewrite, if_neg hw, if_neg (by rw [ht]; decide), if_pos ht, hmx]
    obtain ⟨segs, h1, h2⟩ := filewriteLoop_advance env mx addr n (by exact_mod_cast hmax) tr m
      (fun hist ip a off n1 hp hl => hfull hist ip a off n1 hp (by omega))
      m (k + 1) 0 f [] (by simp [writeLens]) (by simpa using hn) hoff
    simp only [List.append_nil, List.nil_append, Int.zero_add] at h1 h2
    rw [h1]
    have hcall := hbad (tr ++ segs ++ [Event.begin_op, Event.ilock f.ip]) f.ip
      (addr + (m : Int) * mx) ((f.off + m * mx) % UINT_MOD) (segLen n ((m : Int) * mx) mx)
      ⟨segs ++ [Event.begin_op, Event.ilock f.ip], by simp⟩
      (by simp [writeLens_append, writeLens, h2])
      (by unfold segLen; split_ifs <;> omega)
    exact filewriteLoop_step_panic env mx addr n k ((m : Int) * mx) _ (tr ++ segs) hn
      hcall.1 hcall.2
  · intro max k i g t hi r hr
    unfold segLen at hr ⊢
    refine ⟨?_, ?_, ?_, ?_⟩
    · intro h2
      rw [filewriteLoop]
      simp only [hi, if_true]
      rw [← hr, if_pos h2]
      exact ⟨_, _, rfl⟩
    · intro h3 h2
      rw [filewriteLoop]
      simp only [hi, if_true]
      rw [← hr, if_neg h2, if_pos h3, if_neg (by omega)]
      exact ⟨_, _, rfl⟩
    · intro h0 hne
      rw [filewriteLoop]
      simp only [hi, if_true]
      rw [← hr, if_neg (by omega), if_neg (by omega), if_pos hne]
    · intro h0 he
      rw [filewriteLoop]
      simp only [hi, if_true]
      rw [← hr, if_neg (by omega), if_neg (by omega), if_neg (by simpa using he)]
      exact ⟨_, _, rfl⟩

/-- Witness for `short_write_fatal`: a write of 4000 bytes with
`MAXOPBLOCKS = 10` whose second `writei` call returns 0. -/
theorem short_write_fatal_witness :
    filewrite (failEnv 1 0) 10 2 inodeFile 100 4000 [] = Outcome.panic "short filewrite" :=
  (short_write_fatal (failEnv 1 0) 10 inodeFile 100 4000 [] 2 2 (by decide) rfl (by decide)
    (by decide) (by decide) (by decide)
    (fun hist _ _ _ n1 _ hl => by
      simp only [List.length_nil, List.drop_zero] at hl
      show (if (writeLens hist).length < 1 then n1 else 0) = n1
      rw [if_pos (by omega)])
    (fun hist _ _ _ n1 _ hl hpos => by
      simp only [List.length_nil, List.drop_zero] at hl
      show 0 ≤ (if (writeLens hist).length < 1 then n1 else 0)
        ∧ (if (writeLens hist).length < 1 then n1 else 0) ≠ n1
      rw [if_neg (by omega)]
      omega)
    (by decide)).1

/-! ## Segments of a write -/

/-- The trace of every run of the loop that returns, started with `i` bytes
written. -/
theorem filewriteLoop_blocks (env : Env) (max addr n : Int) (off0 : Nat) :
    ∀ (fuel : Nat) (i : Int) (f : File) (tr : List Event) (v : Int) (f1 : File)
      (tr1 : List Event), 0 ≤ i → f.off = (off0 + i.toNat) % UINT_MOD →
      filewriteLoop env max addr n fuel i f tr = Outcome.ret (v, f1, tr1) →
      ∃ rs tail, tr1 = tr ++ expectedBlocks f.ip addr n max off0 i rs ++ tail
        ∧ (tail = [] ∨ (tail = [Event.cprintf overflowMsg] ∧ v = -2))
        ∧ ∀ pre r post, rs = pre ++ r :: post → post ≠ [] →
            0 ≤ r ∧ r = min (n - (i + pre.sum)) max := by
  intro fuel
  induction fuel with
  | zero => intro i f tr v f1 tr1 _ _ h; simp [filewriteLoop] at h
  | succ fuel ih =>
    intro i f tr v f1 tr1 hi0 hoff h
    by_cases hi : i < n
    · rw [filewriteLoop] at h
      simp only [hi, if_true] at h
      have hmin : (if n - i > max then max else n - i) = min (n - i) max := by
        split_ifs <;> omega
      rw [hmin] at h
      generalize hr : env.writei (tr ++ [Event.begin_op, Event.ilock f.ip]) f.ip (addr + i)
        f.off (min (n - i) max) = r at h
      have hstep : tr ++ [Event.begin_op, Event.ilock f.ip] ++
          [Event.writei f.ip (addr + i) f.off (min (n - i) max) r, Event.iunlock f.ip,
            Event.end_op]
          = tr ++ expectedBlocks f.ip addr n max off0 i [r] := by
        simp [expectedBlocks, segmentEvents, hoff]
      rw [hstep] at h
      by_cases h2 : r = -2
      · rw [if_pos h2] at h
        simp only [Outcome.ret.injEq, Prod.mk.injEq] at h
        obtain ⟨rfl, _, rfl⟩ := h
        refine ⟨[r], [Event.cprintf overflowMsg], rfl, Or.inr ⟨rfl, rfl⟩, ?_⟩
        intro pre x post hpre hpost
        exact absurd (singleton_eq_append_cons hpre).2.2 hpost
      · rw [if_neg h2] at h
        by_cases h3 : r < 0
        · rw [if_pos h3] at h
          simp only [Outcome.ret.injEq, Prod.mk.injEq] at h
          obtain ⟨_, _, rfl⟩ := h
          refine ⟨[r], [], by simp, Or.inl rfl, ?_⟩
          intro pre x post hpre hpost
          exact absurd (singleton_eq_append_cons hpre).2.2 hpost
        · rw [if_neg h3] at h
          by_cases h4 : r = min (n - i) max
          · rw [if_neg (by simpa using h4)] at h
            have hf : (if r > 0 then { f with off := (f.off + r.toNat) % UINT_MOD } else f)
                = { f with off := (off0 + (i + r).toNat) % UINT_MOD } := by
              have e : (off0 + (i + r).toNat) % UINT_MOD = (f.off + r.toNat) % UINT_MOD := by
                rw [hoff, uint_add_add, Int.toNat_add hi0 (by omega)]
              rw [e]
              by_cases hp : r > 0
              · rw [if_pos hp]
              · have h0 : r = 0 := by omega
                rw [if_neg hp, h0]
                have : f.off < UINT_MOD := by rw [hoff]; exact Nat.mod_lt _ (by decide)
                simp [Nat.mod_eq_of_lt this]
            rw [hf] at h
            obtain ⟨rs, tail, e1, e2, e3⟩ := ih (i + r) _ _ v f1 tr1 (by omega) rfl h
            refine ⟨r :: rs, tail, ?_, e2, ?_⟩
            · rw [e1]
              simp [expectedBlocks]
            · intro pre x post hpre hpost
              cases pre with
              | nil =>
                simp only [List.nil_append, List.cons.injEq] at hpre
                rw [← hpre.1]
                simp only [List.sum_nil, Int.add_zero]
                exact ⟨by omega, h4⟩
              | cons y ys =>
                simp only [List.cons_append, List.cons.injEq] at hpre
                obtain ⟨p1, p2⟩ := e3 ys x post hpre.2 hpost
                refine ⟨p1, ?_⟩
                rw [p2, ← hpre.1, List.sum_cons, Int.add_assoc]
          · rw [if_pos h4] at h; simp at h
    · rw [filewriteLoop_exit env max addr n fuel i f tr hi] at h
      simp only [Outcome.ret.injEq, Prod.mk.injEq] at h
      obtain ⟨_, _, rfl⟩ := h
      refine ⟨[], [], by simp [expectedBlocks], Or.inl rfl, ?_⟩
      intro pre x post hpre
      simp at hpre

theorem expectedBlocks_count (ip : Nat) (addr n max : Int) (off0 : Nat) :
    ∀ (rs : List Int) (i : Int),
      (expectedBlocks ip addr n max off0 i rs).count Event.begin_op = rs.length
      ∧ (expectedBlocks ip addr n max off0 i rs).count Event.end_op = rs.length
      ∧ (expectedBlocks ip addr n max off0 i rs).count (Event.ilock ip) = rs.length
      ∧ (expectedBlocks ip addr n max off0 i rs).count (Event.iunlock ip) = rs.length
      ∧ writeResults (expectedBlocks ip addr n max off0 i rs) = rs := by
  intro rs
  induction rs with
  | nil => intro i; simp [expectedBlocks, writeResults]
  | cons r rs ih =>
    intro i
    obtain ⟨h1, h2, h3, h4, h5⟩ := ih (i + r)
    simp [expectedBlocks, segmentEvents, h1, h2, h3, h4, h5, writeResults_append, writeResults]

/-- C17. Segment bracket and contiguity: whenever `filewrite` on a writable
inode-backed handle returns (with `n`, -1 or -2), the calls it made are a
concatenation of blocks `begin_op`, `ilock`, `writei`, `iunlock`, `end_op`,
one per `writei` result, followed on the -2 path only by the print of the
overflow message; so there are as many `end_op` as `begin_op` and as many
`iunlock` as `ilock`. Every block but the last wrote its whole segment, and
the block issued when `i` bytes are written has its `writei` take its data at
`addr + i`, go to file offset `initial offset + i` (in `uint` arithmetic) and
have length `min (n - i) max`. The call does return, or panics on a short
write, once the segment bound is positive and the fuel exceeds `n`. -/
theorem segment_bracket (env : Env) (MAXOPBLOCKS : Int) (fuel : Nat) (f : File)
    (addr n : Int) (tr : List Event)
    (hw : f.writable ≠ 0) (ht : f.type = FD_INODE) (hoff : f.off < UINT_MOD) :
    (∀ v f1 tr1, filewrite env MAXOPBLOCKS fuel f addr n tr = Outcome.ret (v, f1, tr1) →
      ∃ rs tail,
        tr1 = tr ++ expectedBlocks f.ip addr n (maxSegment MAXOPBLOCKS) f.off 0 rs ++ tail
        ∧ (tail = [] ∨ (tail = [Event.cprintf overflowMsg] ∧ v = -2))
        ∧ (∀ pre r post, rs = pre ++ r :: post → post ≠ [] →
            0 ≤ r ∧ r = min (n - pre.sum) (maxSegment MAXOPBLOCKS))
        ∧ (expectedBlocks f.ip addr n (maxSegment MAXOPBLOCKS) f.off 0 rs).count
            Event.begin_op = rs.length
        ∧ (expectedBlocks f.ip addr n (maxSegment MAXOPBLOCKS) f.off 0 rs).count
            Event.end_op = rs.length
        ∧ (expectedBlocks f.ip addr n (maxSegment MAXOPBLOCKS) f.off 0 rs).count
            (Event.ilock f.ip) = rs.length
        ∧ (expectedBlocks f.ip addr n (maxSegment MAXOPBLOCKS) f.off 0 rs).count
            (Event.iunlock f.ip) = rs.length)
    ∧ (0 < maxSegment MAXOPBLOCKS → n.toNat < fuel →
        (∃ x, filewrite env MAXOPBLOCKS fuel f addr n tr = Outcome.ret x)
        ∨ filewrite env MAXOPBLOCKS fuel f addr n tr = Outcome.panic "short filewrite") := by
  have hfw : filewrite env MAXOPBLOCKS fuel f addr n tr
      = filewriteLoop env (maxSegment MAXOPBLOCKS) addr n fuel 0 f tr := by
    rw [filewrite, if_neg hw, if_neg (by rw [ht]; decide), if_pos ht]
  rw [hfw]
  constructor
  · intro v f1 tr1 hret
    obtain ⟨rs, tail, e1, e2, e3⟩ :=
      filewriteLoop_blocks env (maxSegment MAXOPBLOCKS) addr n f.off fuel 0 f tr v f1 tr1
        (le_refl 0) (by simp [Nat.mod_eq_of_lt hoff]) hret
    obtain ⟨c1, c2, c3, c4, _⟩ :=
      expectedBlocks_count f.ip addr n (maxSegment MAXOPBLOCKS) f.off rs 0
    refine ⟨rs, tail, e1, e2, ?_, c1, c2, c3, c4⟩
    intro pre r post hpre hpost
    simpa using e3 pre r post hpre hpost
  · intro hmax hfuel
    exact filewriteLoop_terminates env (maxSegment MAXOPBLOCKS) addr n hmax fuel 0 f tr
      (by simpa using hfuel)

/-- Witness for `segment_bracket`: the write of 4000 bytes whose second segment
fails with -1. -/
theorem segment_bracket_witness :
    filewrite (failEnv 1 (-1)) 10 5 inodeFile 100 4000 [] =
      Outcome.ret (-1, { inodeFile with off := 1546 }, failTrace (-1))
    ∧ ∃ rs tail,
        failTrace (-1) = [] ++ expectedBlocks inodeFile.ip 100 4000 (maxSegment 10)
          inodeFile.off 0 rs ++ tail
        ∧ (tail = [] ∨ (tail = [Event.cprintf overflowMsg] ∧ (-1 : Int) = -2))
        ∧ (∀ pre r post, rs = pre ++ r :: post → post ≠ [] →
            0 ≤ r ∧ r = min (4000 - pre.sum) (maxSegment 10))
        ∧ (expectedBlocks inodeFile.ip 100 4000 (maxSegment 10) inodeFile.off 0 rs).count
            Event.begin_op = rs.length
        ∧ (expectedBlocks inodeFile.ip 100 4000 (maxSegment 10) inodeFile.off 0 rs).count
            Event.end_op = rs.length
        ∧ (expectedBlocks inodeFile.ip 100 4000 (maxSegment 10) inodeFile.off 0 rs).count
            (Event.ilock inodeFile.ip) = rs.length
        ∧ (expectedBlocks inodeFile.ip 100 4000 (maxSegment 10) inodeFile.off 0 rs).count
            (Event.iunlock inodeFile.ip) = rs.length :=
  ⟨rfl,
    (segment_bracket (failEnv 1 (-1)) 10 5 inodeFile 100 4000 [] (by decide) rfl
      (by decide)).1 (-1) { inodeFile with off := 1546 } (failTrace (-1)) rfl⟩

/-! ## Table-lock discipline -/

theorem closeTeardown_no_lock (f : File) :
    ∀ e ∈ closeTeardown f, e ≠ Event.acquire ∧ e ≠ Event.release := by
  intro e he
  unfold closeTeardown at he
  split_ifs at he
  · simp only [List.mem_singleton] at he
    rw [he]; exact ⟨by simp, by simp⟩
  · simp only [List.mem_cons, List.mem_singleton, List.not_mem_nil, or_false] at he
    rcases he with he | he | he <;> rw [he] <;> exact ⟨by simp, by simp⟩
  · simp at he

/-- C18. Table-lock discipline: every `filealloc`, `filedup` and `fileclose`
call that returns adds to the trace exactly one `acquire` of the table lock,
immediately followed by its `release` (so no `pipeclose`, `iput`, `begin_op`
or `end_op` lies between them), and then the calls `td`: none for `filealloc`
and `filedup`, and for `fileclose` either none or the teardown of the slot,
which comes after the release and contains no `acquire` and no `release`. -/
theorem table_lock_discipline (s s1 : KState) (op : Op)
    (hstep : stepOp s op = Outcome.ret s1) :
    ∃ td, s1.trace = s.trace ++ [Event.acquire, Event.release] ++ td
      ∧ (∀ e ∈ td, e ≠ Event.acquire ∧ e ≠ Event.release)
      ∧ (op = Op.alloc → td = [])
      ∧ (∀ h, op = Op.dup h → td = [])
      ∧ (∀ h, op = Op.close h →
          ∃ f, s.ftable[h]? = some f ∧ (1 < f.ref → td = [])
            ∧ (f.ref = 1 → td = closeTeardown f)) := by
  cases op with
  | alloc =>
    simp only [stepOp, Outcome.ret.injEq] at hstep
    refine ⟨[], ?_, by simp, fun _ => rfl, fun _ _ => rfl, (fun h e => by cases e)⟩
    rw [← hstep]
    unfold filealloc
    cases fileallocScan s.ftable 0 <;> simp
  | dup h =>
    simp only [stepOp] at hstep
    cases hf : s.ftable[h]? with
    | none => simp [filedup, hf] at hstep
    | some f =>
      rw [filedup_eq s h f hf] at hstep
      by_cases h1 : f.ref < 1
      · simp [h1] at hstep
      · by_cases h2 : f.ref = INT_MAX
        · rw [if_neg h1, if_pos h2] at hstep; simp at hstep
        · rw [if_neg h1, if_neg h2] at hstep
          simp only [Outcome.ret.injEq] at hstep
          refine ⟨[], by rw [← hstep]; simp, by simp, fun _ => rfl, fun _ _ => rfl,
            (fun k e => by cases e)⟩
  | close h =>
    simp only [stepOp] at hstep
    cases hf : s.ftable[h]? with
    | none => simp [fileclose, hf] at hstep
    | some f =>
      rw [fileclose_eq s h f hf] at hstep
      by_cases h1 : f.ref < 1
      · simp [h1] at hstep
      · by_cases h2 : f.ref - 1 > 0
        · rw [if_neg h1, if_pos h2] at hstep
          simp only [Outcome.ret.injEq] at hstep
          refine ⟨[], by rw [← hstep]; simp, by simp, (fun e => by cases e),
            (fun k e => by cases e), ?_⟩
          intro k e
          cases e
          exact ⟨f, hf, fun _ => rfl, fun h3 => by omega⟩
        · rw [if_neg h1, if_neg h2] at hstep
          simp only [Outcome.ret.injEq] at hstep
          refine ⟨closeTeardown f, by rw [← hstep], closeTeardown_no_lock f,
            (fun e => by cases e), (fun k e => by cases e), ?_⟩
          intro k e
          cases e
          exact ⟨f, hf, fun h3 => by omega, fun _ => rfl⟩

/-- Witness for `table_lock_discipline`: the last close of the inode slot of
`sampleState`. -/
theorem table_lock_discipline_witness :
    ∃ td, (sampleState.trace ++ [Event.acquire, Event.release]
          ++ [Event.begin_op, Event.iput 7, Event.end_op])
        = sampleState.trace ++ [Event.acquire, Event.release] ++ td
      ∧ (∀ e ∈ td, e ≠ Event.acquire ∧ e ≠ Event.release)
      ∧ (Op.close 1 = Op.alloc → td = [])
      ∧ (∀ h, Op.close 1 = Op.dup h → td = [])
      ∧ (∀ h, Op.close 1 = Op.close h →
          ∃ f, sampleState.ftable[h]? = some f ∧ (1 < f.ref → td = [])
            ∧ (f.ref = 1 → td = closeTeardown f)) :=
  table_lock_discipline sampleState
    { ftable := sampleState.ftable.set 1 { inodeFile with ref := 0, type := FD_NONE },
      trace := sampleState.trace ++ [Event.acquire, Event.release]
        ++ [Event.begin_op, Event.iput 7, Event.end_op] }
    (Op.close 1) rfl

/-! ## Diagnostic decoder -/

theorem directLoop_eq (addrs : List Nat) (line : Nat → Nat → Print) :
    ∀ (k i : Nat), directLoop addrs line k i =
      ((List.range' i k).filter (fun j => addrs.getD j 0 ≠ 0)).map
        (fun j => line j (addrs.getD j 0)) := by
  intro k
  induction k with
  | zero => intro i; simp [directLoop]
  | succ k ih =>
    intro i
    rw [directLoop, ih (i + 1), List.range'_succ, List.filter_cons]
    by_cases h : addrs.getD i 0 = 0
    · have hd : decide (addrs.getD i 0 ≠ 0) = false := decide_eq_false (not_not.mpr h)
      rw [if_neg (not_not.mpr h), hd]
      rfl
    · have hd : decide (addrs.getD i 0 ≠ 0) = true := decide_eq_true h
      rw [if_pos h, hd]
      rfl

/-- C19. Diagnostic decoder output: `cs_printinfo` leaves the handle and the
inode as they were. It prints the name, the inode number, the type label
(`DIR`, `FILE`, `DEV`, `CS` for types 1, 2, 3, 4 and `NO TYPE` for any other
value), the size and the heading; then, for type 4, one line per direct slot
`i < NDIRECT` whose field is not 0, in increasing order of `i`, with `i`, the
field, `field >> 8` and `field & 255`; for type 2, one line per such slot
with `i` and the field only; for any other type no block line; and last two
empty lines. -/
theorem cs_printinfo_spec (NDIRECT : Nat) (n : File) (ip : Inode) (fname : String) :
    (cs_printinfo NDIRECT n ip fname).1 = n
    ∧ (cs_printinfo NDIRECT n ip fname).2.1 = ip
    ∧ (∃ body, (cs_printinfo NDIRECT n ip fname).2.2 =
        [{ fmt := "FILE NAME: %s\n", args := [PrintArg.str fname] },
         { fmt := "INODE NUM: %d\n", args := [PrintArg.num ip.inum] },
         { fmt := typeLabel ip.type, args := [] },
         { fmt := "FILE SIZE: %d Bytes\n", args := [PrintArg.num ip.size] },
         { fmt := "DIRECT BLOCK INFO: \n", args := [] }]
        ++ body ++ [{ fmt := "\n", args := [] }, { fmt := "\n", args := [] }]
      ∧ (ip.type = 4 → body =
          ((List.range NDIRECT).filter (fun i => ip.addrs.getD i 0 ≠ 0)).map
            (fun i =>
              { fmt := "[%d] %d (num : %d, length: %d)\n",
                args := [PrintArg.num i, PrintArg.num (ip.addrs.getD i 0),
                  PrintArg.num ((ip.addrs.getD i 0 >>> 8 : Nat) : Int),
                  PrintArg.num ((ip.addrs.getD i 0 &&& 255 : Nat) : Int)] }))
      ∧ (ip.type = 2 → body =
          ((List.range NDIRECT).filter (fun i => ip.addrs.getD i 0 ≠ 0)).map
            (fun i =>
              { fmt := "[%d] %d\n",
                args := [PrintArg.num i, PrintArg.num (ip.addrs.getD i 0)] }))
      ∧ (ip.type ≠ 2 → ip.type ≠ 4 → body = []))
    ∧ typeLabel 1 = "FILE TYPE: DIR\n" ∧ typeLabel 2 = "FILE TYPE: FILE\n"
    ∧ typeLabel 3 = "FILE TYPE: DEV\n" ∧ typeLabel 4 = "FILE TYPE: CS\n"
    ∧ (ip.type ≠ 1 → ip.type ≠ 2 → ip.type ≠ 3 → ip.type ≠ 4 →
        typeLabel ip.type = "FILE TYPE: NO TYPE\n") := by
  refine ⟨rfl, rfl, ⟨_, rfl, ?_, ?_, ?_⟩, by decide, by decide, by decide, by decide, ?_⟩
  · intro h4
    rw [if_neg (by rw [h4]; decide), if_pos h4, directLoop_eq, List.range_eq_range']
    rfl
  · intro h2
    rw [if_pos h2, directLoop_eq, List.range_eq_range']
    rfl
  · intro h2 h4
    rw [if_neg h2, if_neg h4]
  · intro h1 h2 h3 h4
    simp [typeLabel, h1, h2, h3, h4]

/-- Witness for `cs_printinfo_spec`: the output on `csInode` with
`NDIRECT = 12`; slots 0 and 2 are printed, the field `0x00001203` as number 18
with length 3. -/
theorem cs_printinfo_spec_witness :
    csInode.type = 4
    ∧ cs_printinfo 12 inodeFile csInode "a.cs" =
      (inodeFile, csInode,
        [{ fmt := "FILE NAME: %s\n", args := [PrintArg.str "a.cs"] },
         { fmt := "INODE NUM: %d\n", args := [PrintArg.num 23] },
         { fmt := "FILE TYPE: CS\n", args := [] },
         { fmt := "FILE SIZE: %d Bytes\n", args := [PrintArg.num 1536] },
         { fmt := "DIRECT BLOCK INFO: \n", args := [] },
         { fmt := "[%d] %d (num : %d, length: %d)\n",
           args := [PrintArg.num 0, PrintArg.num 4611, PrintArg.num 18, PrintArg.num 3] },
         { fmt := "[%d] %d (num : %d, length: %d)\n",
           args := [PrintArg.num 2, PrintArg.num 10753, PrintArg.num 42, PrintArg.num 1] },
         { fmt := "\n", args := [] }, { fmt := "\n", args := [] }]) := by
  obtain ⟨h1, h2, ⟨body, hb, h4, _, _⟩, _⟩ := cs_printinfo_spec 12 inodeFile csInode "a.cs"
  refine ⟨rfl, ?_⟩
  have hbody := h4 rfl
  refine Prod.ext h1 (Prod.ext h2 ?_)
  rw [hb, hbody]
  decide

/-! ## Termination of the write loop -/

theorem segmentBound_pos (R max : Int) (hmax : 0 < max) (hR : 0 < R) :
    segmentBound R max = ((R - 1) / max).toNat + 1 := by
  have e : R + max - 1 = (R - 1) + 1 * max := by ring
  have h0 : 0 ≤ (R - 1) / max := Int.ediv_nonneg (by omega) (le_of_lt hmax)
  rw [segmentBound, e, Int.add_mul_ediv_right _ _ (by omega)]
  omega

theorem segmentBound_nonpos (R max : Int) (hmax : 0 < max) (hR : R ≤ 0) :
    segmentBound R max = 0 := by
  rw [segmentBound]
  have : (R + max - 1) / max ≤ 0 := by
    rcases lt_or_le (R + max - 1) 0 with h | h
    · exact le_of_lt (Int.ediv_neg' h hmax)
    · rw [Int.ediv_eq_zero_of_lt h (by omega)]
  omega

/-- A segment uses up one unit of the bound. -/
theorem segmentBound_step (n i max : Int) (hmax : 0 < max) (hi : i < n) :
    segmentBound (n - (i + segLen n i max)) max + 1 ≤ segmentBound (n - i) max := by
  rw [segmentBound_pos (n - i) max hmax (by omega)]
  unfold segLen
  split_ifs with h
  · have e : n - (i + max) = (n - i - 1) + 1 - max := by ring
    rcases lt_or_le 0 (n - (i + max)) with hp | hp
    · rw [segmentBound_pos _ max hmax hp]
      have e2 : n - i - 1 = (n - (i + max) - 1) + 1 * max := by ring
      have h0 : 0 ≤ (n - (i + max) - 1) / max := Int.ediv_nonneg (by omega) (le_of_lt hmax)
      rw [e2, Int.add_mul_ediv_right _ _ (by omega)]
      omega
    · rw [segmentBound_nonpos _ max hmax hp]; omega
  · rw [segmentBound_nonpos _ max hmax (by omega)]; omega

/-- One pass through the loop body, whatever `writei` returns. -/
theorem filewriteLoop_succ (env : Env) (max addr n : Int) (i : Int) (f : File)
    (tr : List Event) (hi : i < n) :
    ∃ r f1 tr2, tr2 = tr ++ segmentEvents f.ip (addr + i) f.off (segLen n i max) r
      ∧ r = env.writei (tr ++ [Event.begin_op, Event.ilock f.ip]) f.ip (addr + i) f.off
          (segLen n i max)
      ∧ ∀ fuel, filewriteLoop env max addr n (fuel + 1) i f tr =
          if r = -2 then Outcome.ret (-2, f1, tr2 ++ [Event.cprintf overflowMsg])
          else if r < 0 then Outcome.ret (-1, f1, tr2)
          else if r ≠ segLen n i max then Outcome.panic "short filewrite"
          else filewriteLoop env max addr n fuel (i + segLen n i max) f1 tr2 := by
  refine ⟨env.writei (tr ++ [Event.begin_op, Event.ilock f.ip]) f.ip (addr + i) f.off
      (segLen n i max),
    if env.writei (tr ++ [Event.begin_op, Event.ilock f.ip]) f.ip (addr + i) f.off
        (segLen n i max) > 0 then
      { f with off := (f.off + (env.writei (tr ++ [Event.begin_op, Event.ilock f.ip]) f.ip
          (addr + i) f.off (segLen n i max)).toNat) % UINT_MOD }
    else f, _, rfl, rfl, ?_⟩
  intro fuel
  rw [filewriteLoop]
  simp only [hi, if_true]
  unfold segLen
  generalize (if n - i > max then max else n - i) = n1
  generalize env.writei (tr ++ [Event.begin_op, Event.ilock f.ip]) f.ip (addr + i) f.off n1 = r
  have hin : ¬ i = n := by omega
  by_cases h2 : r = -2
  · simp [h2, segmentEvents]
  · by_cases h3 : r < 0
    · simp [h2, h3, hin, segmentEvents]
    · by_cases h4 : r = n1
      · subst h4
        simp [h2, h3, segmentEvents]
      · simp [h2, h3, h4]

/-- More fuel does not change a run that ended. -/
theorem filewriteLoop_mono (env : Env) (max addr n : Int) :
    ∀ (fuel : Nat) (i : Int) (f : File) (tr : List Event),
      filewriteLoop env max addr n fuel i f tr ≠ Outcome.nofuel →
      ∀ k, filewriteLoop env max addr n (fuel + k) i f tr
        = filewriteLoop env max addr n fuel i f tr := by
  intro fuel
  induction fuel with
  | zero => intro i f tr h; simp [filewriteLoop] at h
  | succ fuel ih =>
    intro i f tr h k
    rw [show fuel + 1 + k = (fuel + k) + 1 by omega]
    by_cases hi : i < n
    · obtain ⟨r, f1, tr2, _, _, hstep⟩ := filewriteLoop_succ env max addr n i f tr hi
      rw [hstep fuel] at h ⊢
      rw [hstep (fuel + k)]
      split_ifs at h ⊢ <;> first | rfl | exact ih _ _ _ h k
    · rw [filewriteLoop_exit env max addr n _ i f tr hi,
        filewriteLoop_exit env max addr n _ i f tr hi]

/-- With a positive segment bound, `⌈(n - i) / max⌉ + 1` tests of the loop
condition are enough. -/
theorem filewriteLoop_bound (env : Env) (max addr n : Int) (hmax : 0 < max) :
    ∀ (fuel : Nat) (i : Int) (f : File) (tr : List Event),
      segmentBound (n - i) max < fuel →
      (∃ x, filewriteLoop env max addr n fuel i f tr = Outcome.ret x)
      ∨ filewriteLoop env max addr n fuel i f tr = Outcome.panic "short filewrite" := by
  intro fuel
  induction fuel with
  | zero => intro i f tr h; omega
  | succ fuel ih =>
    intro i f tr h
    by_cases hi : i < n
    · obtain ⟨r, f1, tr2, _, _, hstep⟩ := filewriteLoop_succ env max addr n i f tr hi
      rw [hstep]
      split_ifs with h2 h3 h4
      · exact Or.inl ⟨_, rfl⟩
      · exact Or.inl ⟨_, rfl⟩
      · exact Or.inr rfl
      · have := segmentBound_step n i max hmax hi
        exact ih _ _ _ (by omega)
    · rw [filewriteLoop_exit env max addr n fuel i f tr hi]
      exact Or.inl ⟨_, rfl⟩

/-- With a positive segment bound, a run that is out of fuel after
`⌈(n - i) / max⌉` tests has written everything: one more test and it returns. -/
theorem filewriteLoop_tight (env : Env) (max addr n : Int) (hmax : 0 < max) :
    ∀ (fuel : Nat) (i : Int) (f : File) (tr : List Event),
      segmentBound (n - i) max ≤ fuel →
      filewriteLoop env max addr n fuel i f tr = Outcome.nofuel →
      ∃ x, filewriteLoop env max addr n (fuel + 1) i f tr = Outcome.ret x := by
  intro fuel
  induction fuel with
  | zero =>
    intro i f tr h _
    have hi : ¬ i < n := by
      intro hi
      have := segmentBound_pos (n - i) max hmax (by omega)
      omega
    rw [filewriteLoop_exit env max addr n 0 i f tr hi]
    exact ⟨_, rfl⟩
  | succ fuel ih =>
    intro i f tr h hno
    by_cases hi : i < n
    · obtain ⟨r, f1, tr2, _, _, hstep⟩ := filewriteLoop_succ env max addr n i f tr hi
      have hb := segmentBound_step n i max hmax hi
      rw [hstep fuel] at hno
      rw [hstep (fuel + 1)]
      split_ifs at hno ⊢
      exact ih _ _ _ (by omega) hno
    · rw [filewriteLoop_exit env max addr n fuel i f tr hi] at hno
      simp at hno

/-- The segments of a run that returns are at most `⌈(n - i) / max⌉`. -/
theorem filewriteLoop_count (env : Env) (max addr n : Int) (hmax : 0 < max) :
    ∀ (fuel : Nat) (i : Int) (f : File) (tr : List Event) (x : Int × File × List Event),
      filewriteLoop env max addr n fuel i f tr = Outcome.ret x →
      ∃ new, x.2.2 = tr ++ new
        ∧ (writeLens new).length ≤ segmentBound (n - i) max
        ∧ new.count Event.begin_op = (writeLens new).length
        ∧ new.count Event.end_op = (writeLens new).length := by
  intro fuel
  induction fuel with
  | zero => intro i f tr x h; simp [filewriteLoop] at h
  | succ fuel ih =>
    intro i f tr x h
    by_cases hi : i < n
    · obtain ⟨r, f1, tr2, htr, _, hstep⟩ := filewriteLoop_succ env max addr n i f tr hi
      have hb := segmentBound_step n i max hmax hi
      rw [hstep] at h
      split_ifs at h with h2 h3 h4
      · simp only [Outcome.ret.injEq] at h
        subst h
        have h1 := segmentBound_pos (n - i) max hmax (by omega)
        exact ⟨segmentEvents f.ip (addr + i) f.off (segLen n i max) r
          ++ [Event.cprintf overflowMsg], by simp [htr],
          by simp [segmentEvents, writeLens, writeLens_append]; omega,
          by simp [segmentEvents, writeLens, writeLens_append],
          by simp [segmentEvents, writeLens, writeLens_append]⟩
      · simp only [Outcome.ret.injEq] at h
        subst h
        have h1 := segmentBound_pos (n - i) max hmax (by omega)
        exact ⟨segmentEvents f.ip (addr + i) f.off (segLen n i max) r, by simp [htr],
          by simp [segmentEvents, writeLens]; omega,
          by simp [segmentEvents, writeLens], by simp [segmentEvents, writeLens]⟩
      · obtain ⟨new, e1, e2, e3, e4⟩ := ih _ _ _ x h
        refine ⟨segmentEvents f.ip (addr + i) f.off (segLen n i max) r ++ new,
          by rw [e1, htr]; simp, ?_, ?_, ?_⟩
        · simp [writeLens_append, segmentEvents, writeLens]; omega
        · simp [writeLens_append, segmentEvents, writeLens, e3]
        · simp [writeLens_append, segmentEvents, writeLens, e4]
    · rw [filewriteLoop_exit env max addr n fuel i f tr hi] at h
      simp only [Outcome.ret.injEq] at h
      subst h
      exact ⟨[], by simp, by simp [writeLens], by simp [writeLens], by simp [writeLens]⟩

/-- With a segment bound of 0 and a `writei` that writes what it is asked to,
a write of `n > 0` bytes never leaves the loop. -/
theorem filewriteLoop_zero_max (env : Env) (addr n : Int) (hn : 0 < n)
    (hok : ∀ h ip a off n1, env.writei h ip a off n1 = n1) :
    ∀ (fuel : Nat) (f : File) (tr : List Event),
      filewriteLoop env 0 addr n fuel 0 f tr = Outcome.nofuel := by
  intro fuel
  induction fuel with
  | zero => intro f tr; rfl
  | succ fuel ih =>
    intro f tr
    obtain ⟨r, f1, tr2, _, hr, hstep⟩ := filewriteLoop_succ env 0 addr n 0 f tr hn
    have hseg : segLen n 0 0 = 0 := by unfold segLen; rw [if_pos (by omega)]
    rw [hok, hseg] at hr
    rw [hstep, hseg, hr, if_neg (by omega), if_neg (by omega), if_neg (by simp)]
    exact ih f1 tr2

theorem maxSegment_pos_iff (MAXOPBLOCKS : Int) : 0 < maxSegment MAXOPBLOCKS ↔ 6 ≤ MAXOPBLOCKS := by
  unfold maxSegment
  rcases lt_or_le (MAXOPBLOCKS - 1 - 1 - 2) 0 with h | h
  · have e : MAXOPBLOCKS - 1 - 1 - 2 = -(4 - MAXOPBLOCKS) := by ring
    rw [e, Int.neg_tdiv, Int.tdiv_eq_ediv (by omega) (by omega)]
    omega
  · rw [Int.tdiv_eq_ediv h (by omega)]
    omega

/-- C20. Write loop termination: on a writable inode-backed handle, for every
`n` and every behaviour of `writei`, if the segment bound `max` is positive
(which is the case exactly when `MAXOPBLOCKS ≥ 6`), `filewrite` ends, by a
return or by the panic on a short write, within `⌈n / max⌉` segments:
`⌈n / max⌉ + 1` tests of the loop condition are enough for it to end, a run
that returns has issued at most `⌈n / max⌉` segments, and a run that panics
does so within the first `⌈n / max⌉` passes through the loop body. Each pass
either ends the run or adds the positive length of its segment to the count
of bytes written. For `n ≤ 0` no segment is issued and the result is 0 for
`n = 0` and -1 for `n < 0`. With `max = 0` and a `writei` that writes what it
is asked to, a write of `n > 0` bytes never ends. -/
theorem write_loop_termination (env : Env) (MAXOPBLOCKS : Int) (f : File) (addr n : Int)
    (tr : List Event) (hw : f.writable ≠ 0) (ht : f.type = FD_INODE) :
    (0 < maxSegment MAXOPBLOCKS ↔ 6 ≤ MAXOPBLOCKS)
    ∧ (0 < maxSegment MAXOPBLOCKS →
        (∀ fuel, segmentBound n (maxSegment MAXOPBLOCKS) < fuel →
          (∃ x, filewrite env MAXOPBLOCKS fuel f addr n tr = Outcome.ret x)
          ∨ filewrite env MAXOPBLOCKS fuel f addr n tr = Outcome.panic "short filewrite")
        ∧ (∀ fuel x, filewrite env MAXOPBLOCKS fuel f addr n tr = Outcome.ret x →
            ∃ new, x.2.2 = tr ++ new
              ∧ (writeLens new).length ≤ segmentBound n (maxSegment MAXOPBLOCKS)
              ∧ new.count Event.begin_op = (writeLens new).length
              ∧ new.count Event.end_op = (writeLens new).length)
        ∧ (∀ fuel msg, filewrite env MAXOPBLOCKS fuel f addr n tr = Outcome.panic msg →
            filewrite env MAXOPBLOCKS (segmentBound n (maxSegment MAXOPBLOCKS)) f addr n tr
              = Outcome.panic msg)
        ∧ (∀ (k : Nat) (i : Int) (g : File) (t : List Event), i < n →
            0 < segLen n i (maxSegment MAXOPBLOCKS)
            ∧ ((∃ x, filewriteLoop env (maxSegment MAXOPBLOCKS) addr n (k + 1) i g t
                  = Outcome.ret x)
              ∨ filewriteLoop env (maxSegment MAXOPBLOCKS) addr n (k + 1) i g t
                  = Outcome.panic "short filewrite"
              ∨ ∃ g1 t1, filewriteLoop env (maxSegment MAXOPBLOCKS) addr n (k + 1) i g t
                  = filewriteLoop env (maxSegment MAXOPBLOCKS) addr n k
                      (i + segLen n i (maxSegment MAXOPBLOCKS)) g1 t1)))
    ∧ (n ≤ 0 → ∀ fuel, filewrite env MAXOPBLOCKS (fuel + 1) f addr n tr
        = Outcome.ret (if n = 0 then 0 else -1, f, tr))
    ∧ (maxSegment MAXOPBLOCKS = 0 → 0 < n →
        (∀ h ip a off n1, env.writei h ip a off n1 = n1) →
        ∀ fuel, filewrite env MAXOPBLOCKS fuel f addr n tr = Outcome.nofuel) := by
  have hfw : ∀ fuel, filewrite env MAXOPBLOCKS fuel f addr n tr
      = filewriteLoop env (maxSegment MAXOPBLOCKS) addr n fuel 0 f tr := by
    intro fuel
    rw [filewrite, if_neg hw, if_neg (by rw [ht]; decide), if_pos ht]
  refine ⟨maxSegment_pos_iff MAXOPBLOCKS, ?_, ?_, ?_⟩
  · intro hmax
    refine ⟨?_, ?_, ?_, ?_⟩
    · intro fuel hfuel
      rw [hfw]
      exact filewriteLoop_bound env _ addr n hmax fuel 0 f tr (by simpa using hfuel)
    · intro fuel x hret
      rw [hfw] at hret
      simpa using filewriteLoop_count env _ addr n hmax fuel 0 f tr x hret
    · intro fuel msg hp
      rw [hfw] at hp ⊢
      have hb : filewriteLoop env (maxSegment MAXOPBLOCKS) addr n
          (segmentBound n (maxSegment MAXOPBLOCKS)) 0 f tr ≠ Outcome.nofuel := by
        intro hno
        obtain ⟨x, hx⟩ := filewriteLoop_tight env _ addr n hmax _ 0 f tr (by simp) hno
        rcases Nat.lt_or_ge (segmentBound n (maxSegment MAXOPBLOCKS)) fuel with hlt | hge
        · have := filewriteLoop_mono env _ addr n _ 0 f tr (by rw [hx]; simp)
            (fuel - (segmentBound n (maxSegment MAXOPBLOCKS) + 1))
          rw [show segmentBound n (maxSegment MAXOPBLOCKS) + 1
              + (fuel - (segmentBound n (maxSegment MAXOPBLOCKS) + 1)) = fuel by omega,
            hx, hp] at this
          simp at this
        · have := filewriteLoop_mono env _ addr n fuel 0 f tr (by rw [hp]; simp)
            (segmentBound n (maxSegment MAXOPBLOCKS) - fuel)
          rw [show fuel + (segmentBound n (maxSegment MAXOPBLOCKS) - fuel)
              = segmentBound n (maxSegment MAXOPBLOCKS) by omega, hno, hp] at this
          simp at this
      rcases Nat.lt_or_ge (segmentBound n (maxSegment MAXOPBLOCKS)) fuel with hlt | hge
      · have := filewriteLoop_mono env _ addr n _ 0 f tr hb
          (fuel - segmentBound n (maxSegment MAXOPBLOCKS))
        rw [show segmentBound n (maxSegment MAXOPBLOCKS)
            + (fuel - segmentBound n (maxSegment MAXOPBLOCKS)) = fuel by omega, hp] at this
        exact this.symm
      · have := filewriteLoop_mono env _ addr n fuel 0 f tr (by rw [hp]; simp)
          (segmentBound n (maxSegment MAXOPBLOCKS) - fuel)
        rw [show fuel + (segmentBound n (maxSegment MAXOPBLOCKS) - fuel)
            = segmentBound n (maxSegment MAXOPBLOCKS) by omega, hp] at this
        exact this
    · intro k i g t hi
      refine ⟨by unfold segLen; split_ifs <;> omega, ?_⟩
      obtain ⟨r, g1, t1, _, _, hstep⟩ := filewriteLoop_succ env _ addr n i g t hi
      rw [hstep]
      split_ifs
      · exact Or.inl ⟨_, rfl⟩
      · exact Or.inl ⟨_, rfl⟩
      · exact Or.inr (Or.inl rfl)
      · exact Or.inr (Or.inr ⟨g1, t1, rfl⟩)
  · intro hn fuel
    rw [hfw, filewriteLoop_exit env _ addr n fuel 0 f tr (by omega)]
    by_cases h0 : n = 0
    · simp [h0]
    · simp [h0, Ne.symm h0]
  · intro hz hn hok fuel
    rw [hfw, hz]
    exact filewriteLoop_zero_max env addr n hn hok fuel f tr

/-- Witness for `write_loop_termination`: 4000 bytes with `MAXOPBLOCKS = 10`
need `⌈4000 / 1536⌉ = 3` segments, and 4 tests of the loop condition end the
write. -/
theorem write_loop_termination_witness :
    0 < maxSegment 10 ∧ segmentBound 4000 (maxSegment 10) = 3
    ∧ ((∃ x, filewrite okEnv 10 4 inodeFile 100 4000 [] = Outcome.ret x)
      ∨ filewrite okEnv 10 4 inodeFile 100 4000 [] = Outcome.panic "short filewrite") :=
  ⟨by decide, by decide,
    ((write_loop_termination okEnv 10 inodeFile 100 4000 [] (by decide) rfl).2.1
      (by decide)).1 4 (by decide)⟩

/-! ## Writing a device -/

/-- C14, counterexample. `file.c` has no Device kind and `filewrite` has no
branch on one: a device is written through an inode-backed handle, by `writei`
(the comment in `filewrite` says so). On such a handle, with
`MAXOPBLOCKS = 10`, a write of 5 bytes whose `writei` returns -5 returns -1, not
the value the write returned; and a write of 4000 bytes does not hand over the
buffer and its length: `writei` is called three times, for 1536, 1536 and 928
bytes. -/
theorem filewrite_device_counterexample :
    inodeFile.writable ≠ 0 ∧ inodeFile.type = FD_INODE
    ∧ (failEnv 0 (-5)).writei [Event.begin_op, Event.ilock 7] 7 100 10 5 = -5
    ∧ filewrite (failEnv 0 (-5)) 10 5 inodeFile 100 5 [] =
        Outcome.ret (-1, inodeFile, segmentEvents 7 100 10 5 (-5))
    ∧ (-1 : Int) ≠ -5
    ∧ filewrite okEnv 10 5 inodeFile 100 4000 [] =
        Outcome.ret (4000, { inodeFile with off := 4010 },
          segmentEvents 7 100 10 1536 1536 ++ segmentEvents 7 1636 1546 1536 1536
            ++ segmentEvents 7 3172 3082 928 928) :=
  ⟨by decide, rfl, rfl, rfl, by decide, rfl⟩

/-- C14, amended. `filewrite` never uses `devsw`: a device is written through a
writable inode-backed handle, and on every such handle a `filewrite` that
returns has only made calls of the blocks `begin_op`, `ilock`, `writei`,
`iunlock`, `end_op` (and the console print on the -2 path). The buffer goes to
`writei` in segments, the one issued when `i` bytes are written taking its data
at `addr + i` with length `min (n - i) max`. With `rs` the values `writei`
returned, the result is `n` if the bytes written total `n` and negative
otherwise; a negative `writei` result is the last one and gives -2 if it is -2
and -1 otherwise. The call does return, or panics on a short write, once the
segment bound is positive and the fuel exceeds `n`. -/
theorem filewrite_device_segments (env : Env) (MAXOPBLOCKS : Int) (fuel : Nat) (f : File)
    (addr n : Int) (tr : List Event)
    (hw : f.writable ≠ 0) (ht : f.type = FD_INODE) (hoff : f.off < UINT_MOD) :
    (∀ v f1 tr1, filewrite env MAXOPBLOCKS fuel f addr n tr = Outcome.ret (v, f1, tr1) →
      ∃ rs tail,
        tr1 = tr ++ expectedBlocks f.ip addr n (maxSegment MAXOPBLOCKS) f.off 0 rs ++ tail
        ∧ (tail = [] ∨ (tail = [Event.cprintf overflowMsg] ∧ v = -2))
        ∧ writeResults (expectedBlocks f.ip addr n (maxSegment MAXOPBLOCKS) f.off 0 rs ++ tail)
            = rs
        ∧ ((rs.filter (fun r => 0 < r)).sum = n → v = n)
        ∧ ((rs.filter (fun r => 0 < r)).sum ≠ n → v < 0)
        ∧ ∀ pre r post, rs = pre ++ r :: post → r < 0 →
            post = [] ∧ (r = -2 → v = -2) ∧ (r ≠ -2 → v = -1))
    ∧ (0 < maxSegment MAXOPBLOCKS → n.toNat < fuel →
        (∃ x, filewrite env MAXOPBLOCKS fuel f addr n tr = Outcome.ret x)
        ∨ filewrite env MAXOPBLOCKS fuel f addr n tr = Outcome.panic "short filewrite") := by
  have hfw : filewrite env MAXOPBLOCKS fuel f addr n tr
      = filewriteLoop env (maxSegment MAXOPBLOCKS) addr n fuel 0 f tr := by
    rw [filewrite, if_neg hw, if_neg (by rw [ht]; decide), if_pos ht]
  rw [hfw]
  constructor
  · intro v f1 tr1 hret
    obtain ⟨rs, tail, e1, e2, _⟩ :=
      filewriteLoop_blocks env (maxSegment MAXOPBLOCKS) addr n f.off fuel 0 f tr v f1 tr1
        (le_refl 0) (by simp [Nat.mod_eq_of_lt hoff]) hret
    obtain ⟨new, n1, _, n3, n4, n5⟩ :=
      filewriteLoop_ret env (maxSegment MAXOPBLOCKS) addr n fuel 0 f tr v f1 tr1 hoff hret
    have hnew : new
        = expectedBlocks f.ip addr n (maxSegment MAXOPBLOCKS) f.off 0 rs ++ tail := by
      rw [n1, List.append_assoc] at e1
      exact List.append_cancel_left e1
    have hres : writeResults new = rs := by
      rw [hnew, writeResults_append,
        (expectedBlocks_count f.ip addr n (maxSegment MAXOPBLOCKS) f.off rs 0).2.2.2.2]
      rcases e2 with h | ⟨h, _⟩ <;> simp [h, writeResults]
    have hb : bytesWritten new = (rs.filter (fun r => 0 < r)).sum := by
      rw [bytesWritten, hres]
    refine ⟨rs, tail, e1, e2, by rw [← hnew, hres], ?_, ?_, ?_⟩
    · intro h; exact n3 (by rw [hb]; omega)
    · intro h; exact n4 (by rw [hb]; omega)
    · intro pre r post hpre hr
      obtain ⟨p1, _, p3, p4⟩ := n5 pre r post (by rw [hres]; exact hpre) hr
      exact ⟨p1, p4, p3⟩
  · intro hmax hfuel
    exact filewriteLoop_terminates env (maxSegment MAXOPBLOCKS) addr n hmax fuel 0 f tr
      (by simpa using hfuel)

/-- Witness for `filewrite_device_segments`: the write of 4000 bytes whose
second segment fails with -1. -/
theorem filewrite_device_segments_witness :
    filewrite (failEnv 1 (-1)) 10 5 inodeFile 100 4000 [] =
      Outcome.ret (-1, { inodeFile with off := 1546 }, failTrace (-1))
    ∧ ∃ rs tail,
        failTrace (-1) = [] ++ expectedBlocks inodeFile.ip 100 4000 (maxSegment 10)
          inodeFile.off 0 rs ++ tail
        ∧ (tail = [] ∨ (tail = [Event.cprintf overflowMsg] ∧ (-1 : Int) = -2))
        ∧ writeResults (expectedBlocks inodeFile.ip 100 4000 (maxSegment 10)
            inodeFile.off 0 rs ++ tail) = rs
        ∧ ((rs.filter (fun r => 0 < r)).sum = 4000 → (-1 : Int) = 4000)
        ∧ ((rs.filter (fun r => 0 < r)).sum ≠ 4000 → (-1 : Int) < 0)
        ∧ ∀ pre r post, rs = pre ++ r :: post → r < 0 →
            post = [] ∧ (r = -2 → (-1 : Int) = -2) ∧ (r ≠ -2 → (-1 : Int) = -1) :=
  ⟨rfl,
    (filewrite_device_segments (failEnv 1 (-1)) 10 5 inodeFile 100 4000 [] (by decide) rfl
      (by decide)).1 (-1) { inodeFile with off := 1546 } (failTrace (-1)) rfl⟩

end FileC
